import Mathlib

/-!
Verification of the doctor-patient meeting-link demo backend (`src/main.py`).

The development shallowly embeds the two core components of the program:

* the URL query-parameter machinery used by `JioMeetClient._augment_url`
  (Python's `urllib.parse`: `urlparse`, `parse_qsl`, `urlencode`,
  `urlunparse`, with percent-encoding modelled byte-exactly via UTF-8),
* `JioMeetClient` itself (`__init__` mode selection, `create_meeting`,
  `_create_mock_meeting`, `_build_meeting_info`) and the single-slot
  `AppointmentStore`.

Python strings are modelled as `List Char`; Python `dict`s as ordered
association lists with Python's insertion-order semantics; fallible
operations return `Except`.
-/

namespace JioMeet

/-- Python `str` is modelled as a list of unicode characters. -/
abbrev Str := List Char

/-! ## UTF-8 encoding and decoding

`urllib.parse.quote` percent-encodes the UTF-8 bytes of a character, and
`urllib.parse.unquote` decodes runs of `%XX` escapes as UTF-8 byte strings
(with U+FFFD replacement on malformed data).  We model bytes as `Nat`. -/

/-- UTF-8 encoding of a single unicode code point, as a list of bytes. -/
def utf8EncodeNat (n : Nat) : List Nat :=
  if n < 0x80 then [n]
  else if n < 0x800 then [0xC0 + n / 0x40, 0x80 + n % 0x40]
  else if n < 0x10000 then
    [0xE0 + n / 0x1000, 0x80 + n / 0x40 % 0x40, 0x80 + n % 0x40]
  else
    [0xF0 + n / 0x40000, 0x80 + n / 0x1000 % 0x40, 0x80 + n / 0x40 % 0x40,
      0x80 + n % 0x40]

/-- The unicode replacement character U+FFFD produced by decoding errors. -/
def replCh : Char := Char.ofNat 0xFFFD

/-- Is `b` a UTF-8 continuation byte (`0x80 ≤ b < 0xC0`)? -/
def contByte (b : Nat) : Bool := 0x80 ≤ b ∧ b < 0xC0

/-- One UTF-8 decoding step: given a lead byte `b` and the remaining bytes,
return the decoded character (U+FFFD on malformed input) and how many of the
remaining bytes were consumed beyond the lead byte. -/
def decode1 (b : Nat) (bs : List Nat) : Char × Nat :=
  if b < 0x80 then (Char.ofNat b, 0)
  else if b < 0xC2 then (replCh, 0)
  else if b < 0xE0 then
    match bs with
    | b2 :: _ =>
      if contByte b2 then (Char.ofNat ((b - 0xC0) * 0x40 + (b2 - 0x80)), 1)
      else (replCh, 0)
    | [] => (replCh, 0)
  else if b < 0xF0 then
    match bs with
    | b2 :: b3 :: _ =>
      if contByte b2 ∧ contByte b3 then
        let n := (b - 0xE0) * 0x1000 + (b2 - 0x80) * 0x40 + (b3 - 0x80)
        if 0x800 ≤ n ∧ (n < 0xD800 ∨ 0xDFFF < n) then (Char.ofNat n, 2)
        else (replCh, 0)
      else (replCh, 0)
    | _ => (replCh, 0)
  else if b < 0xF5 then
    match bs with
    | b2 :: b3 :: b4 :: _ =>
      if contByte b2 ∧ contByte b3 ∧ contByte b4 then
        let n := (b - 0xF0) * 0x40000 + (b2 - 0x80) * 0x1000 +
          (b3 - 0x80) * 0x40 + (b4 - 0x80)
        if 0x10000 ≤ n ∧ n < 0x110000 then (Char.ofNat n, 3)
        else (replCh, 0)
      else (replCh, 0)
    | _ => (replCh, 0)
  else (replCh, 0)

/-- UTF-8 decoding of a byte list, emitting U+FFFD for malformed input
(mirroring Python's `errors="replace"` decoding). -/
def utf8Decode : List Nat → List Char
  | [] => []
  | b :: bs => (decode1 b bs).1 :: utf8Decode (bs.drop (decode1 b bs).2)
termination_by l => l.length
decreasing_by simp only [List.length_drop, List.length_cons]; omega

/-- Decoding inverts encoding: prepending the UTF-8 bytes of a valid
character decodes to that character followed by the decoding of the rest. -/
theorem utf8Decode_encode_cons (c : Char) (bs : List Nat) :
    utf8Decode (utf8EncodeNat c.toNat ++ bs) = c :: utf8Decode bs := by
  have hv : c.toNat < 0xD800 ∨ (0xDFFF < c.toNat ∧ c.toNat < 0x110000) :=
    c.valid
  set n := c.toNat with hn
  have hofn : Char.ofNat n = c := Char.ofNat_toNat c
  rcases Nat.lt_or_ge n 0x80 with h1 | h1
  · have hd : decode1 n bs = (Char.ofNat n, 0) := by
      dsimp only [decode1]; rw [if_pos h1]
    rw [utf8EncodeNat, if_pos h1]
    simp only [List.cons_append, List.nil_append, utf8Decode, hd,
      List.drop_zero, hofn]
  · rcases Nat.lt_or_ge n 0x800 with h2 | h2
    · have hd : decode1 (0xC0 + n / 0x40) ((0x80 + n % 0x40) :: bs)
          = (Char.ofNat n, 1) := by
        dsimp only [decode1]
        rw [if_neg (by omega), if_neg (by omega), if_pos (by omega),
          if_pos (show contByte (0x80 + n % 0x40) = true by
            simp only [contByte, decide_eq_true_eq]; omega)]
        have hval : (0xC0 + n / 0x40 - 0xC0) * 0x40 + (0x80 + n % 0x40 - 0x80)
            = n := by omega
        rw [hval]
      rw [utf8EncodeNat, if_neg (by omega), if_pos h2]
      simp only [List.cons_append, List.nil_append, utf8Decode, hd, hofn,
        List.drop_succ_cons, List.drop_zero]
    · rcases Nat.lt_or_ge n 0x10000 with h3 | h3
      · have hc2 : contByte (0x80 + n / 0x40 % 0x40) = true := by
          simp only [contByte, decide_eq_true_eq]; omega
        have hc3 : contByte (0x80 + n % 0x40) = true := by
          simp only [contByte, decide_eq_true_eq]; omega
        have hval : (0xE0 + n / 0x1000 - 0xE0) * 0x1000 +
            (0x80 + n / 0x40 % 0x40 - 0x80) * 0x40 + (0x80 + n % 0x40 - 0x80)
            = n := by omega
        have hd : decode1 (0xE0 + n / 0x1000)
            ((0x80 + n / 0x40 % 0x40) :: (0x80 + n % 0x40) :: bs)
            = (Char.ofNat n, 2) := by
          dsimp only [decode1]
          rw [if_neg (by omega), if_neg (by omega), if_neg (by omega),
            if_pos (by omega), if_pos (by exact ⟨hc2, hc3⟩), hval,
            if_pos (by omega)]
        rw [utf8EncodeNat, if_neg (by omega), if_neg (by omega), if_pos h3]
        simp only [List.cons_append, List.nil_append, utf8Decode, hd, hofn,
          List.drop_succ_cons, List.drop_zero]
      · have h4 : n < 0x110000 := by omega
        have hc2 : contByte (0x80 + n / 0x1000 % 0x40) = true := by
          simp only [contByte, decide_eq_true_eq]; omega
        have hc3 : contByte (0x80 + n / 0x40 % 0x40) = true := by
          simp only [contByte, decide_eq_true_eq]; omega
        have hc4 : contByte (0x80 + n % 0x40) = true := by
          simp only [contByte, decide_eq_true_eq]; omega
        have hval : (0xF0 + n / 0x40000 - 0xF0) * 0x40000 +
            (0x80 + n / 0x1000 % 0x40 - 0x80) * 0x1000 +
            (0x80 + n / 0x40 % 0x40 - 0x80) * 0x40 + (0x80 + n % 0x40 - 0x80)
            = n := by omega
        have hd : decode1 (0xF0 + n / 0x40000)
            ((0x80 + n / 0x1000 % 0x40) :: (0x80 + n / 0x40 % 0x40) ::
              (0x80 + n % 0x40) :: bs)
            = (Char.ofNat n, 3) := by
          dsimp only [decode1]
          rw [if_neg (by omega), if_neg (by omega), if_neg (by omega),
            if_neg (by omega), if_pos (by omega),
            if_pos (by exact ⟨hc2, hc3, hc4⟩), hval, if_pos (by omega)]
        rw [utf8EncodeNat, if_neg (by omega), if_neg (by omega),
          if_neg (by omega)]
        simp only [List.cons_append, List.nil_append, utf8Decode, hd, hofn,
          List.drop_succ_cons, List.drop_zero]

/-! ## Percent-encoding: `quote_plus` and `unquote` -/

/-- The characters `urllib.parse.quote` never escapes (with `safe=""`):
ASCII letters, digits and `_.-~`. -/
def alwaysSafe (c : Char) : Bool :=
  (decide ('A' ≤ c) && decide (c ≤ 'Z')) ||
  (decide ('a' ≤ c) && decide (c ≤ 'z')) ||
  (decide ('0' ≤ c) && decide (c ≤ '9')) ||
  (c == '_' || c == '.' || c == '-' || c == '~')

/-- Uppercase hexadecimal digit for `n < 16`. -/
def hexDigit (n : Nat) : Char :=
  if n < 10 then Char.ofNat (48 + n) else Char.ofNat (55 + n)

/-- Is `c` a hexadecimal digit (either case)? -/
def isHexDigit (c : Char) : Bool :=
  (decide ('0' ≤ c) && decide (c ≤ '9')) ||
  (decide ('A' ≤ c) && decide (c ≤ 'F')) ||
  (decide ('a' ≤ c) && decide (c ≤ 'f'))

/-- Numeric value of a hexadecimal digit. -/
def hexVal (c : Char) : Nat :=
  if c ≤ '9' then c.toNat - 48 else if c ≤ 'F' then c.toNat - 55
  else c.toNat - 87

/-- `urllib.parse.quote_plus` with `safe=""` on a single character: space
becomes `+`, always-safe characters stay, everything else is
percent-escaped per UTF-8 byte with uppercase hex digits. -/
def quoteChar (c : Char) : Str :=
  if c = ' ' then ['+']
  else if alwaysSafe c then [c]
  else (utf8EncodeNat c.toNat).flatMap fun b =>
    ['%', hexDigit (b / 16), hexDigit (b % 16)]

/-- `urllib.parse.quote_plus` with `safe=""`. -/
def quote_plus (s : Str) : Str := s.flatMap quoteChar

/-- Tokens of the unquoting scanner: a literal character or an escaped
byte. -/
inductive QTok where
  | ch (c : Char)
  | byte (b : Nat)
deriving DecidableEq

/-- Scan a string into unquote tokens: `%XX` with two hex digits becomes an
escaped byte, everything else is literal (a `%` not followed by two hex
digits stays literal, as in Python). -/
def unquoteTokens : Str → List QTok
  | [] => []
  | c :: rest =>
    if c = '%' then
      match rest with
      | a :: b :: rest2 =>
        if isHexDigit a ∧ isHexDigit b then
          QTok.byte (hexVal a * 16 + hexVal b) :: unquoteTokens rest2
        else QTok.ch c :: unquoteTokens (a :: b :: rest2)
      | r => QTok.ch c :: unquoteTokens r
    else QTok.ch c :: unquoteTokens rest
termination_by s => s.length
decreasing_by all_goals (simp only [List.length_cons]; omega)

/-- Collect the maximal leading run of escaped bytes. -/
def takeBytes : List QTok → List Nat × List QTok
  | QTok.byte b :: ts => ((takeBytes ts).1.cons b, (takeBytes ts).2)
  | ts => ([], ts)

theorem takeBytes_len (ts : List QTok) : (takeBytes ts).2.length ≤ ts.length := by
  induction ts with
  | nil => simp [takeBytes]
  | cons t ts ih =>
    cases t with
    | ch c => simp [takeBytes]
    | byte b => simpa [takeBytes] using Nat.le_succ_of_le ih

/-- Decode a token list: literal characters pass through, maximal runs of
escaped bytes are decoded as UTF-8 (Python decodes each run of `%XX`
escapes as a byte string). -/
def tokensDecode : List QTok → Str
  | [] => []
  | QTok.ch c :: ts => c :: tokensDecode ts
  | QTok.byte b :: ts =>
    utf8Decode (b :: (takeBytes ts).1) ++ tokensDecode (takeBytes ts).2
termination_by l => l.length
decreasing_by
  all_goals simp only [List.length_cons]
  · omega
  · have := takeBytes_len ts; omega

/-- `urllib.parse.unquote` with UTF-8 `errors="replace"` decoding. -/
def unquote (s : Str) : Str := tokensDecode (unquoteTokens s)

/-- Python's `s.replace("+", " ")`. -/
def plusToSpace (s : Str) : Str := s.map fun c => if c = '+' then ' ' else c

/-- The per-pair unquoting done by `parse_qsl`:
`unquote(s.replace("+", " "))`. -/
def unquote_plus (s : Str) : Str := unquote (plusToSpace s)

/-! ### Round trip: unquoting inverts quoting -/

theorem utf8EncodeNat_ne_nil (n : Nat) : utf8EncodeNat n ≠ [] := by
  unfold utf8EncodeNat
  by_cases h1 : n < 0x80
  · simp [h1]
  · by_cases h2 : n < 0x800 <;> by_cases h3 : n < 0x10000 <;> simp [h1, h2, h3]

theorem utf8EncodeNat_lt (n : Nat) (hn : n < 0x110000) :
    ∀ b ∈ utf8EncodeNat n, b < 256 := by
  intro b hb
  unfold utf8EncodeNat at hb
  by_cases h1 : n < 0x80
  · rw [if_pos h1] at hb; simp only [List.mem_singleton] at hb; omega
  · rw [if_neg h1] at hb
    by_cases h2 : n < 0x800
    · rw [if_pos h2] at hb
      simp only [List.mem_cons, List.not_mem_nil, or_false] at hb
      rcases hb with h | h <;> omega
    · rw [if_neg h2] at hb
      by_cases h3 : n < 0x10000
      · rw [if_pos h3] at hb
        simp only [List.mem_cons, List.not_mem_nil, or_false] at hb
        rcases hb with h | h | h <;> omega
      · rw [if_neg h3] at hb
        simp only [List.mem_cons, List.not_mem_nil, or_false] at hb
        rcases hb with h | h | h | h <;> omega

theorem isHexDigit_hexDigit (m : Nat) (h : m < 16) :
    isHexDigit (hexDigit m) = true := by
  interval_cases m <;> decide

theorem hexVal_hexDigit (m : Nat) (h : m < 16) : hexVal (hexDigit m) = m := by
  interval_cases m <;> decide

theorem hexDigit_ne_plus (m : Nat) (h : m < 16) : hexDigit m ≠ '+' := by
  interval_cases m <;> decide

theorem alwaysSafe_ne_percent {c : Char} (h : alwaysSafe c = true) :
    c ≠ '%' := by
  rintro rfl; exact absurd h (by decide)

theorem alwaysSafe_ne_plus {c : Char} (h : alwaysSafe c = true) : c ≠ '+' := by
  rintro rfl; exact absurd h (by decide)

/-- The tokens a single source character contributes after quoting and
rescanning. -/
def charTokens (c : Char) : List QTok :=
  if c = ' ' ∨ alwaysSafe c = true then [QTok.ch c]
  else (utf8EncodeNat c.toNat).map QTok.byte

theorem unquoteTokens_plain (c : Char) (r : Str) (h : ¬ c = '%') :
    unquoteTokens (c :: r) = QTok.ch c :: unquoteTokens r := by
  rcases r with _ | ⟨a, _ | ⟨b, r2⟩⟩ <;>
    (rw [unquoteTokens.eq_def]; dsimp only; rw [if_neg h])

theorem unquoteTokens_escape (a b : Char) (r : Str) (ha : isHexDigit a = true)
    (hb : isHexDigit b = true) :
    unquoteTokens ('%' :: a :: b :: r)
      = QTok.byte (hexVal a * 16 + hexVal b) :: unquoteTokens r := by
  rw [unquoteTokens, if_pos rfl]
  simp only [ha, hb, and_self, if_true]

theorem unquoteTokens_escapes (bs : List Nat) (u : Str)
    (hbs : ∀ b ∈ bs, b < 256) :
    unquoteTokens ((bs.flatMap fun b =>
        ['%', hexDigit (b / 16), hexDigit (b % 16)]) ++ u)
      = bs.map QTok.byte ++ unquoteTokens u := by
  induction bs with
  | nil => simp
  | cons b bs ih =>
    have hb : b < 256 := hbs b (List.mem_cons_self b bs)
    have hdiv : b / 16 < 16 := by omega
    have hmod : b % 16 < 16 := by omega
    simp only [List.flatMap_cons, List.cons_append, List.append_assoc]
    rw [unquoteTokens_escape _ _ _ (isHexDigit_hexDigit _ hdiv)
      (isHexDigit_hexDigit _ hmod)]
    rw [hexVal_hexDigit _ hdiv, hexVal_hexDigit _ hmod]
    have hbeq : b / 16 * 16 + b % 16 = b := by omega
    rw [hbeq]
    simp only [List.nil_append]
    rw [ih (fun x hx => hbs x (List.mem_cons_of_mem b hx))]
    simp

theorem plusToSpace_escapes (bs : List Nat) (hbs : ∀ b ∈ bs, b < 256) :
    plusToSpace (bs.flatMap fun b =>
        ['%', hexDigit (b / 16), hexDigit (b % 16)])
      = bs.flatMap fun b => ['%', hexDigit (b / 16), hexDigit (b % 16)] := by
  induction bs with
  | nil => rfl
  | cons b bs ih =>
    have hb : b < 256 := hbs b (List.mem_cons_self b bs)
    simp only [List.flatMap_cons, plusToSpace, List.map_append] at *
    congr 1
    · simp only [List.map_cons, List.map_nil]
      rw [if_neg (by decide : ¬ ('%' = '+')),
        if_neg (hexDigit_ne_plus (b / 16) (by omega)),
        if_neg (hexDigit_ne_plus (b % 16) (by omega))]
    · exact ih fun x hx => hbs x (List.mem_cons_of_mem b hx)

theorem unquoteTokens_quoteChar (c : Char) (u : Str) :
    unquoteTokens (plusToSpace (quoteChar c) ++ u)
      = charTokens c ++ unquoteTokens u := by
  by_cases hsp : c = ' '
  · subst hsp
    rw [quoteChar, if_pos rfl, charTokens, if_pos (Or.inl rfl)]
    show unquoteTokens (' ' :: u) = QTok.ch ' ' :: unquoteTokens u
    rw [unquoteTokens_plain _ _ (by decide)]
  · by_cases hsafe : alwaysSafe c = true
    · rw [quoteChar, if_neg hsp, if_pos hsafe, charTokens,
        if_pos (Or.inr hsafe)]
      have hps : plusToSpace [c] = [c] := by
        simp [plusToSpace, alwaysSafe_ne_plus hsafe]
      rw [hps]
      show unquoteTokens (c :: u) = QTok.ch c :: unquoteTokens u
      rw [unquoteTokens_plain _ _ (alwaysSafe_ne_percent hsafe)]
    · rw [quoteChar, if_neg hsp, if_neg hsafe, charTokens,
        if_neg (not_or.mpr ⟨hsp, hsafe⟩)]
      have hvalid : c.toNat < 0x110000 := by
        have he : c.toNat = c.val.toNat := rfl
        rcases c.valid with h | h <;> omega
      have hbytes := utf8EncodeNat_lt c.toNat hvalid
      rw [plusToSpace_escapes _ hbytes, unquoteTokens_escapes _ _ hbytes]

theorem takeBytes_map_byte (bs : List Nat) (ts : List QTok) :
    takeBytes (bs.map QTok.byte ++ ts)
      = (bs ++ (takeBytes ts).1, (takeBytes ts).2) := by
  induction bs with
  | nil => simp
  | cons b bs ih => simp [takeBytes, ih]

theorem tokensDecode_takeBytes (ts : List QTok) :
    utf8Decode (takeBytes ts).1 ++ tokensDecode (takeBytes ts).2
      = tokensDecode ts := by
  cases ts with
  | nil => simp [takeBytes, tokensDecode, utf8Decode]
  | cons t ts =>
    cases t with
    | ch c => simp [takeBytes, tokensDecode, utf8Decode]
    | byte b => simp [takeBytes, tokensDecode]

theorem tokensDecode_map_byte (bs : List Nat) (ts : List QTok)
    (h : bs ≠ []) :
    tokensDecode (bs.map QTok.byte ++ ts)
      = utf8Decode (bs ++ (takeBytes ts).1) ++ tokensDecode (takeBytes ts).2 := by
  match bs, h with
  | b :: bs2, _ =>
    simp only [List.map_cons, List.cons_append, tokensDecode,
      takeBytes_map_byte, List.cons_append]

theorem tokensDecode_charTokens (s : Str) :
    tokensDecode (s.flatMap charTokens) = s := by
  induction s with
  | nil => simp [tokensDecode]
  | cons c s ih =>
    by_cases hc : c = ' ' ∨ alwaysSafe c = true
    · simp only [List.flatMap_cons, charTokens, if_pos hc,
        List.singleton_append, tokensDecode, ih]
    · rw [List.flatMap_cons, charTokens, if_neg hc,
        tokensDecode_map_byte _ _ (by
          simp only [ne_eq, List.map_eq_nil_iff]
          exact utf8EncodeNat_ne_nil _)]
      rw [utf8Decode_encode_cons, List.cons_append, tokensDecode_takeBytes, ih]

theorem unquoteTokens_quote_plus (s u : Str) :
    unquoteTokens (plusToSpace (quote_plus s) ++ u)
      = s.flatMap charTokens ++ unquoteTokens u := by
  induction s with
  | nil => simp [quote_plus, plusToSpace]
  | cons c s ih =>
    rw [quote_plus, List.flatMap_cons]
    show unquoteTokens (plusToSpace (quoteChar c ++ s.flatMap quoteChar) ++ u)
      = _
    rw [show plusToSpace (quoteChar c ++ s.flatMap quoteChar)
        = plusToSpace (quoteChar c) ++ plusToSpace (s.flatMap quoteChar) from
      List.map_append _ _ _]
    rw [List.append_assoc, unquoteTokens_quoteChar]
    rw [show s.flatMap quoteChar = quote_plus s from rfl, ih]
    simp [List.append_assoc]

/-- Unquoting inverts quoting: `unquote(quote_plus(s).replace("+", " "))`
recovers `s` for every string `s`. -/
theorem unquote_plus_quote_plus (s : Str) :
    unquote_plus (quote_plus s) = s := by
  have h := unquoteTokens_quote_plus s []
  rw [List.append_nil] at h
  rw [unquote_plus, unquote, h]
  rw [unquoteTokens.eq_1, List.append_nil]
  exact tokensDecode_charTokens s

/-! ## `parse_qsl` and `urlencode` -/

/-- Python `s.split(sep)` for a one-character separator: always returns at
least one (possibly empty) part. -/
def splitOnChar (sep : Char) : Str → List Str
  | [] => [[]]
  | c :: rest =>
    if c = sep then [] :: splitOnChar sep rest
    else
      match splitOnChar sep rest with
      | r :: rs => (c :: r) :: rs
      | [] => [[c]]

/-- Split at the first occurrence of `sep`: the part before it, and the part
after it (`none` when `sep` does not occur), as in `s.split(sep, 1)`. -/
def breakOnFirst (sep : Char) : Str → Str × Option Str
  | [] => ([], none)
  | c :: rest =>
    if c = sep then ([], some rest)
    else ((breakOnFirst sep rest).1.cons c, (breakOnFirst sep rest).2)

/-- `urllib.parse.parse_qsl(qs, keep_blank_values=True)`: split on `&`,
skip empty chunks, split each chunk at the first `=` (missing value becomes
the empty string), and unquote name and value with `+` as space. -/
def parse_qsl (qs : Str) : List (Str × Str) :=
  (splitOnChar '&' qs).filterMap fun nameValue =>
    if nameValue = [] then none
    else
      let nv := breakOnFirst '=' nameValue
      some (unquote_plus nv.1, unquote_plus (nv.2.getD []))

/-- Python `sep.join(parts)` for a one-character separator. -/
def joinSep (sep : Char) : List Str → Str
  | [] => []
  | [x] => x
  | x :: xs => x ++ sep :: joinSep sep xs

/-- `urllib.parse.urlencode(query, doseq=True)` on string pairs: quote each
key and value and join as `k=v` chunks with `&`. -/
def urlencode (query : List (Str × Str)) : Str :=
  joinSep '&' (query.map fun kv => quote_plus kv.1 ++ '=' :: quote_plus kv.2)

/-! ### Round trip: parsing inverts encoding -/

theorem mem_quote_plus {x : Char} {s : Str} (hx : x ∈ quote_plus s) :
    x = '+' ∨ alwaysSafe x = true ∨ x = '%' ∨ isHexDigit x = true := by
  rw [quote_plus, List.mem_flatMap] at hx
  obtain ⟨c, _, hc⟩ := hx
  rw [quoteChar] at hc
  by_cases hsp : c = ' '
  · rw [if_pos hsp] at hc
    simp only [List.mem_singleton] at hc
    exact Or.inl hc
  · rw [if_neg hsp] at hc
    by_cases hsafe : alwaysSafe c = true
    · rw [if_pos hsafe] at hc
      simp only [List.mem_singleton] at hc
      subst hc
      exact Or.inr (Or.inl hsafe)
    · rw [if_neg hsafe, List.mem_flatMap] at hc
      obtain ⟨b, hb, hxb⟩ := hc
      have hvalid : c.toNat < 0x110000 := by
        have he : c.toNat = c.val.toNat := rfl
        rcases c.valid with h | h <;> omega
      have hb256 : b < 256 := utf8EncodeNat_lt c.toNat hvalid b hb
      simp only [List.mem_cons, List.not_mem_nil, or_false] at hxb
      rcases hxb with h | h | h
      · exact Or.inr (Or.inr (Or.inl h))
      · subst h
        exact Or.inr (Or.inr (Or.inr (isHexDigit_hexDigit _ (by omega))))
      · subst h
        exact Or.inr (Or.inr (Or.inr (isHexDigit_hexDigit _ (by omega))))

theorem not_mem_quote_plus (d : Char)
    (hd : ¬ (d = '+' ∨ alwaysSafe d = true ∨ d = '%' ∨ isHexDigit d = true))
    (s : Str) : d ∉ quote_plus s :=
  fun h => hd (mem_quote_plus h)

theorem splitOnChar_no_sep (sep : Char) (s : Str) (h : sep ∉ s) :
    splitOnChar sep s = [s] := by
  induction s with
  | nil => rfl
  | cons c rest ih =>
    rw [splitOnChar,
      if_neg (by intro hc; subst hc; exact h (List.mem_cons_self c rest)),
      ih (fun hm => h (List.mem_cons_of_mem c hm))]

theorem splitOnChar_front (sep : Char) (x t : Str) (h : sep ∉ x) :
    splitOnChar sep (x ++ sep :: t) = x :: splitOnChar sep t := by
  induction x with
  | nil => simp [splitOnChar]
  | cons c rest ih =>
    rw [List.cons_append, splitOnChar,
      if_neg (by intro hc; subst hc; exact h (List.mem_cons_self c rest)),
      ih (fun hm => h (List.mem_cons_of_mem c hm))]

theorem splitOnChar_joinSep (sep : Char) (segs : List Str) (hne : segs ≠ [])
    (h : ∀ seg ∈ segs, sep ∉ seg) :
    splitOnChar sep (joinSep sep segs) = segs := by
  induction segs with
  | nil => exact absurd rfl hne
  | cons x xs ih =>
    cases xs with
    | nil =>
      rw [show joinSep sep [x] = x from rfl,
        splitOnChar_no_sep sep x (h x (List.mem_cons_self x []))]
    | cons y ys =>
      rw [show joinSep sep (x :: y :: ys) = x ++ sep :: joinSep sep (y :: ys)
          from rfl,
        splitOnChar_front sep x _ (h x (List.mem_cons_self x _)),
        ih (List.cons_ne_nil y ys)
          (fun seg hs => h seg (List.mem_cons_of_mem x hs))]

theorem breakOnFirst_append (sep : Char) (a b : Str) (h : sep ∉ a) :
    breakOnFirst sep (a ++ sep :: b) = (a, some b) := by
  induction a with
  | nil => simp [breakOnFirst]
  | cons c rest ih =>
    rw [List.cons_append, breakOnFirst,
      if_neg (by intro hc; subst hc; exact h (List.mem_cons_self c rest)),
      ih (fun hm => h (List.mem_cons_of_mem c hm))]

/-- Parsing inverts encoding: `parse_qsl(urlencode(l))` recovers every list
of key-value string pairs `l` exactly (keys and values, order and
multiplicity). -/
theorem parse_qsl_urlencode (l : List (Str × Str)) :
    parse_qsl (urlencode l) = l := by
  cases l with
  | nil => rfl
  | cons kv l0 =>
    rw [parse_qsl, urlencode]
    rw [splitOnChar_joinSep '&' _ (by simp) (by
      intro seg hs
      rw [List.mem_map] at hs
      obtain ⟨p, _, hp⟩ := hs
      subst hp
      intro hmem
      rcases List.mem_append.mp hmem with h | h
      · exact not_mem_quote_plus '&' (by decide) _ h
      · rcases List.mem_cons.mp h with h | h
        · exact absurd h (by decide)
        · exact not_mem_quote_plus '&' (by decide) _ h)]
    rw [List.filterMap_map]
    have hstep : ∀ p : Str × Str,
        ((fun nameValue =>
          if nameValue = [] then none
          else
            let nv := breakOnFirst '=' nameValue
            some (unquote_plus nv.1, unquote_plus (nv.2.getD []))) ∘
          fun kv => quote_plus kv.1 ++ '=' :: quote_plus kv.2) p = some p := by
      intro p
      simp only [Function.comp_apply]
      rw [if_neg (by simp)]
      rw [breakOnFirst_append '=' _ _ (not_mem_quote_plus '=' (by decide) _)]
      simp only [Option.getD_some]
      rw [unquote_plus_quote_plus, unquote_plus_quote_plus]
    induction (kv :: l0) with
    | nil => rfl
    | cons q l1 ih => rw [List.filterMap_cons, hstep q, ih]

/-! ## `urlparse` and `urlunparse` -/

/-- The result of `urllib.parse.urlparse`: six string components. -/
structure ParseResult where
  scheme : Str
  netloc : Str
  path : Str
  params : Str
  query : Str
  fragment : Str
deriving DecidableEq

/-- Characters allowed in a URL scheme (`urllib.parse.scheme_chars`). -/
def schemeChars : Str :=
  ("abcdefghijklmnopqrstuvwxyzABCDEFGHIJKLMNOPQRSTUVWXYZ0123456789+-." :
    String).data

/-- The schemes for which `urlparse` splits path parameters
(`urllib.parse.uses_params`, which includes the empty scheme). -/
def usesParams : List Str :=
  [("ftp" : String).data, ("hdl" : String).data, ("prospero" : String).data,
    ("http" : String).data, ("imap" : String).data, ("https" : String).data,
    ("shttp" : String).data, ("rtsp" : String).data, ("rtspu" : String).data,
    ("sip" : String).data, ("sips" : String).data, ("mms" : String).data,
    ("sftp" : String).data, ("tel" : String).data, []]

/-- The scheme-detection step of `urlsplit`: if the text before the first
`:` is nonempty, starts with an ASCII letter and consists of scheme
characters, it is the (lowercased) scheme; otherwise there is no scheme. -/
def splitScheme (url : Str) : Str × Str :=
  match breakOnFirst ':' url with
  | (before, some rest) =>
    if before ≠ [] ∧ (before.headD ' ').isAlpha = true ∧
        ∀ c ∈ before, c ∈ schemeChars then
      (before.map Char.toLower, rest)
    else ([], url)
  | (_, none) => ([], url)

/-- Is `c` one of the netloc delimiters `/`, `?`, `#`? -/
def netlocDelim (c : Char) : Bool := c == '/' || c == '?' || c == '#'

/-- `_splitnetloc(url, 2)`: everything after the leading `//` up to the
first `/`, `?` or `#` is the netloc; the rest (including the delimiter)
stays. -/
def splitNetloc (url : Str) : Str × Str :=
  ((url.drop 2).takeWhile (fun c => !netlocDelim c),
    (url.drop 2).dropWhile (fun c => !netlocDelim c))

/-- Python's `url.split(sep, 1)` pattern used by `urlsplit` for `#` and
`?`: if the separator is absent the string is unchanged and the second
part is empty. -/
def cutFirst (sep : Char) (s : Str) : Str × Str :=
  match breakOnFirst sep s with
  | (before, some rest) => (before, rest)
  | (before, none) => (before, [])

/-- The scheme extracted by `urlsplit` (lowercased). -/
def schemePart (u : Str) : Str := (splitScheme u).1

/-- What remains of the URL after removing the scheme. -/
def rest1 (u : Str) : Str := (splitScheme u).2

/-- The netloc extracted by `urlsplit` (empty unless the post-scheme rest
starts with `//`). -/
def netlocOf (u : Str) : Str :=
  if (rest1 u).take 2 = ['/', '/'] then (splitNetloc (rest1 u)).1 else []

/-- What remains after removing scheme and netloc. -/
def rest2 (u : Str) : Str :=
  if (rest1 u).take 2 = ['/', '/'] then (splitNetloc (rest1 u)).2
  else rest1 u

/-- What remains after also removing the fragment. -/
def rest3 (u : Str) : Str := (cutFirst '#' (rest2 u)).1

/-- The fragment extracted by `urlsplit`. -/
def fragmentOf (u : Str) : Str := (cutFirst '#' (rest2 u)).2

/-- The path (with any parameters still attached) extracted by
`urlsplit`. -/
def path0Of (u : Str) : Str := (cutFirst '?' (rest3 u)).1

/-- The query extracted by `urlsplit`. -/
def queryOf (u : Str) : Str := (cutFirst '?' (rest3 u)).2

/-- `urllib.parse.urlsplit` (without the IPv6 bracket validation, which can
only raise): scheme, netloc, path, query, fragment.  The algorithm is
CPython's: detect a scheme before the first `:`, take the netloc after a
leading `//` up to the first `/`, `?` or `#`, then split off first the
fragment at the first `#` and then the query at the first `?`. -/
def urlsplit (url : Str) : Str × Str × Str × Str × Str :=
  (schemePart url, netlocOf url, path0Of url, queryOf url, fragmentOf url)

/-- The reversed last `/`-separated segment of `u`. -/
def lastSeg (u : Str) : Str := (u.reverse.takeWhile (fun c => !(c == '/'))).reverse

/-- Everything of `u` up to and including its last `/` (empty if none). -/
def frontPart (u : Str) : Str :=
  (u.reverse.dropWhile (fun c => !(c == '/'))).reverse

/-- `urllib.parse._splitparams`: split the path at the first `;` occurring
in its last `/`-separated segment. -/
def splitParams (url : Str) : Str × Str :=
  match breakOnFirst ';' (lastSeg url) with
  | (a, some ps) => (frontPart url ++ a, ps)
  | (_, none) => (url, [])

/-- `urllib.parse.urlparse`: `urlsplit` plus splitting path parameters for
the schemes in `usesParams`. -/
def urlparse (url : Str) : ParseResult :=
  let pp :=
    if schemePart url ∈ usesParams then splitParams (path0Of url)
    else (path0Of url, [])
  ⟨schemePart url, netlocOf url, pp.1, pp.2, queryOf url, fragmentOf url⟩

/-- `urllib.parse.urlunsplit`. -/
def urlunsplit (scheme netloc path0 query fragment : Str) : Str :=
  let url1 :=
    if netloc ≠ [] ∨ path0.take 2 = ['/', '/'] then
      ['/', '/'] ++ netloc ++
        (if path0 ≠ [] ∧ path0.take 1 ≠ ['/'] then '/' :: path0 else path0)
    else path0
  let url2 := if scheme ≠ [] then scheme ++ ':' :: url1 else url1
  let url3 := if query ≠ [] then url2 ++ '?' :: query else url2
  if fragment ≠ [] then url3 ++ '#' :: fragment else url3

/-- The path with its parameters re-attached, as `urlunparse` rebuilds it. -/
def pathWithParams (p : ParseResult) : Str :=
  if p.params ≠ [] then p.path ++ ';' :: p.params else p.path

/-- `urllib.parse.urlunparse`. -/
def urlunparse (p : ParseResult) : Str :=
  urlunsplit p.scheme p.netloc (pathWithParams p) p.query p.fragment

/-! ## Python `dict` model and `_augment_url` -/

/-- Setting `d[k] = v` on an insertion-ordered dictionary: overwrite in
place if the key is present, else append. -/
def dictInsert (m : List (Str × Str)) (k v : Str) : List (Str × Str) :=
  if m.any (fun p => p.1 == k) then
    m.map (fun p => if p.1 == k then (k, v) else p)
  else m ++ [(k, v)]

/-- `dict(pairs)`: left-to-right insertion, so a repeated key keeps the
position of its first occurrence and the value of its last. -/
def pyDict (l : List (Str × Str)) : List (Str × Str) :=
  l.foldl (fun m kv => dictInsert m kv.1 kv.2) []

/-- `d.pop(k, None)`: drop the key if present. -/
def dictPop (m : List (Str × Str)) (k : Str) : List (Str × Str) :=
  m.filter (fun p => !(p.1 == k))

/-- The loop body of `_augment_url` for one `params` item: pop the key when
the value is `None`, set/overwrite it otherwise. -/
def paramStep (m : List (Str × Str)) (kv : Str × Option Str) :
    List (Str × Str) :=
  match kv.2 with
  | none => dictPop m kv.1
  | some v => dictInsert m kv.1 v

/-- `JioMeetClient._augment_url`.  `params` values are `Option Str`, with
`none` modelling Python `None` (delete the key); `remove_keys` is modelled
as a list (set iteration order does not matter since pops commute). -/
def augment_url (base : Str) (params : List (Str × Option Str))
    (removeKeys : List Str) : Str :=
  let parsed := urlparse base
  let existing0 := pyDict (parse_qsl parsed.query)
  let existing1 := removeKeys.foldl dictPop existing0
  let existing2 := params.foldl paramStep existing1
  urlunparse { parsed with query := urlencode existing2 }

/-! ## Structural lemmas about the splitting primitives -/

theorem breakOnFirst_fst_no_sep (sep : Char) (s : Str) :
    sep ∉ (breakOnFirst sep s).1 := by
  induction s with
  | nil => simp [breakOnFirst]
  | cons c rest ih =>
    rw [breakOnFirst]
    by_cases hc : c = sep
    · simp [hc]
    · rw [if_neg hc]
      show sep ∉ c :: (breakOnFirst sep rest).1
      intro hmem
      rcases List.mem_cons.mp hmem with h | h
      · exact hc h.symm
      · exact ih h

theorem breakOnFirst_some (sep : Char) (s : Str) (r : Str)
    (h : (breakOnFirst sep s).2 = some r) :
    s = (breakOnFirst sep s).1 ++ sep :: r := by
  induction s generalizing r with
  | nil => simp [breakOnFirst] at h
  | cons c rest ih =>
    rw [breakOnFirst] at h ⊢
    by_cases hc : c = sep
    · rw [if_pos hc] at h ⊢
      simp only [Option.some.injEq] at h
      simp [hc, h]
    · rw [if_neg hc] at h ⊢
      simp only [List.cons_append, List.cons.injEq, true_and]
      exact ih r h

theorem breakOnFirst_none (sep : Char) (s : Str)
    (h : (breakOnFirst sep s).2 = none) :
    (breakOnFirst sep s).1 = s ∧ sep ∉ s := by
  induction s with
  | nil => simp [breakOnFirst]
  | cons c rest ih =>
    rw [breakOnFirst] at h ⊢
    by_cases hc : c = sep
    · rw [if_pos hc] at h; simp at h
    · rw [if_neg hc] at h ⊢
      obtain ⟨h1, h2⟩ := ih h
      refine ⟨by simp [h1], ?_⟩
      intro hmem
      rcases List.mem_cons.mp hmem with hh | hh
      · exact hc hh.symm
      · exact h2 hh

theorem breakOnFirst_no_sep (sep : Char) (s : Str) (h : sep ∉ s) :
    breakOnFirst sep s = (s, none) := by
  induction s with
  | nil => rfl
  | cons c rest ih =>
    rw [breakOnFirst,
      if_neg (by intro hc; subst hc; exact h (List.mem_cons_self c rest)),
      ih (fun hm => h (List.mem_cons_of_mem c hm))]

theorem takeWhile_append_all (p : Char → Bool) (a b : Str)
    (h : ∀ c ∈ a, p c = true) :
    (a ++ b).takeWhile p = a ++ b.takeWhile p := by
  induction a with
  | nil => simp
  | cons c rest ih =>
    rw [List.cons_append, List.takeWhile_cons,
      if_pos (h c (List.mem_cons_self c rest)),
      ih (fun x hx => h x (List.mem_cons_of_mem c hx))]
    rfl

theorem dropWhile_append_all (p : Char → Bool) (a b : Str)
    (h : ∀ c ∈ a, p c = true) :
    (a ++ b).dropWhile p = b.dropWhile p := by
  induction a with
  | nil => simp
  | cons c rest ih =>
    rw [List.cons_append, List.dropWhile_cons,
      if_pos (h c (List.mem_cons_self c rest)),
      ih (fun x hx => h x (List.mem_cons_of_mem c hx))]

theorem takeWhile_head_false (p : Char → Bool) (b : Str)
    (h : b = [] ∨ p (b.headD ' ') = false) :
    b.takeWhile p = [] := by
  cases b with
  | nil => rfl
  | cons c rest =>
    rcases h with h | h
    · cases h
    · simp only [List.headD_cons] at h
      rw [List.takeWhile_cons, if_neg (by simp [h])]

theorem dropWhile_head_false (p : Char → Bool) (b : Str)
    (h : b = [] ∨ p (b.headD ' ') = false) :
    b.dropWhile p = b := by
  cases b with
  | nil => rfl
  | cons c rest =>
    rcases h with h | h
    · cases h
    · simp only [List.headD_cons] at h
      rw [List.dropWhile_cons, if_neg (by simp [h])]

theorem breakOnFirst_append_left (sep : Char) (a t : Str) (ha : sep ∉ a) :
    breakOnFirst sep (a ++ t)
      = (a ++ (breakOnFirst sep t).1, (breakOnFirst sep t).2) := by
  induction a with
  | nil => simp
  | cons c rest ih =>
    rw [List.cons_append, breakOnFirst,
      if_neg (by intro hc; subst hc; exact ha (List.mem_cons_self c rest)),
      ih (fun hm => ha (List.mem_cons_of_mem c hm))]
    simp

theorem frontPart_append_lastSeg (u : Str) : frontPart u ++ lastSeg u = u := by
  rw [frontPart, lastSeg, ← List.reverse_append,
    List.takeWhile_append_dropWhile, List.reverse_reverse]

theorem slash_not_mem_lastSeg (u : Str) : '/' ∉ lastSeg u := by
  rw [lastSeg]
  intro h
  rw [List.mem_reverse] at h
  have := List.mem_takeWhile_imp h
  simp at this

theorem lastSeg_append_no_slash (a b : Str) (h : '/' ∉ b) :
    lastSeg (a ++ b) = lastSeg a ++ b ∧ frontPart (a ++ b) = frontPart a := by
  have hall : ∀ c ∈ b.reverse, (!(c == '/')) = true := by
    intro c hc
    rw [List.mem_reverse] at hc
    simp only [Bool.not_eq_eq_eq_not, Bool.not_true, beq_eq_false_iff_ne,
      ne_eq]
    exact fun he => h (he ▸ hc)
  constructor
  · rw [lastSeg, lastSeg, List.reverse_append,
      takeWhile_append_all _ _ _ hall, List.reverse_append,
      List.reverse_reverse]
  · rw [frontPart, frontPart, List.reverse_append,
      dropWhile_append_all _ _ _ hall]

theorem dropWhile_head_prop (p : Char → Bool) (l : Str) :
    l.dropWhile p = [] ∨ p ((l.dropWhile p).headD ' ') = false := by
  induction l with
  | nil => exact Or.inl rfl
  | cons c rest ih =>
    rw [List.dropWhile_cons]
    by_cases hc : p c = true
    · rw [if_pos hc]; exact ih
    · rw [if_neg hc]
      exact Or.inr (by simp only [List.headD_cons]; exact
        Bool.eq_false_iff.mpr hc)

theorem frontPart_idem (u : Str) :
    lastSeg (frontPart u) = [] ∧ frontPart (frontPart u) = frontPart u := by
  have hrev : (frontPart u).reverse
      = u.reverse.dropWhile (fun c => !(c == '/')) := by
    rw [frontPart, List.reverse_reverse]
  have hd := dropWhile_head_prop (fun c => !(c == '/')) u.reverse
  constructor
  · rw [lastSeg, hrev, takeWhile_head_false _ _ hd]
    rfl
  · rw [frontPart, hrev, dropWhile_head_false _ _ hd, ← hrev,
      List.reverse_reverse]

theorem splitParams_eq (u : Str) :
    (splitParams u = (u, []) ∧ ';' ∉ lastSeg u) ∨
    (∃ a ps, breakOnFirst ';' (lastSeg u) = (a, some ps) ∧
      splitParams u = (frontPart u ++ a, ps) ∧
      u = frontPart u ++ (a ++ ';' :: ps)) := by
  cases hr : (breakOnFirst ';' (lastSeg u)).2 with
  | none =>
    left
    obtain ⟨h1, h2⟩ := breakOnFirst_none ';' (lastSeg u) hr
    constructor
    · rw [splitParams.eq_def,
        show breakOnFirst ';' (lastSeg u)
          = ((breakOnFirst ';' (lastSeg u)).1, none) from by rw [← hr]]
    · exact h2
  | some ps =>
    right
    refine ⟨(breakOnFirst ';' (lastSeg u)).1, ps, ?_, ?_, ?_⟩
    · rw [← hr]
    · rw [splitParams.eq_def,
        show breakOnFirst ';' (lastSeg u)
          = ((breakOnFirst ';' (lastSeg u)).1, some ps) from by rw [← hr]]
    · conv_lhs => rw [← frontPart_append_lastSeg u,
        breakOnFirst_some ';' (lastSeg u) ps hr]

theorem splitParams_recombine (u path params : Str)
    (hsp : splitParams u = (path, params)) :
    splitParams (if params ≠ [] then path ++ ';' :: params else path)
      = (path, params) := by
  rcases splitParams_eq u with ⟨h1, _⟩ | ⟨a, ps, hb, h1, h2⟩
  · have heq : (path, params) = (u, ([] : Str)) := hsp.symm.trans h1
    have hp : path = u := congrArg Prod.fst heq
    have hq : params = ([] : Str) := congrArg Prod.snd heq
    subst hp; subst hq
    rw [if_neg (by simp)]
    exact h1
  · have heq : (path, params) = (frontPart u ++ a, ps) := hsp.symm.trans h1
    have hp : path = frontPart u ++ a := congrArg Prod.fst heq
    have hq : params = ps := congrArg Prod.snd heq
    subst hp; subst hq
    have ha1 : (breakOnFirst ';' (lastSeg u)).1 = a := congrArg Prod.fst hb
    have ha2 : (breakOnFirst ';' (lastSeg u)).2 = some params :=
      congrArg Prod.snd hb
    have hnsa : ';' ∉ a := ha1 ▸ breakOnFirst_fst_no_sep ';' (lastSeg u)
    have hlsu : lastSeg u = a ++ ';' :: params := by
      have := breakOnFirst_some ';' (lastSeg u) params ha2
      rwa [ha1] at this
    have hslash_a : '/' ∉ a := fun hm =>
      slash_not_mem_lastSeg u (hlsu ▸ List.mem_append_left _ hm)
    have hslash_par : '/' ∉ params := fun hm =>
      slash_not_mem_lastSeg u
        (hlsu ▸ List.mem_append_right _ (List.mem_cons_of_mem _ hm))
    obtain ⟨hfi1, hfi2⟩ := frontPart_idem u
    by_cases hpe : params = []
    · subst hpe
      rw [if_neg (by simp)]
      obtain ⟨hl, hf⟩ := lastSeg_append_no_slash (frontPart u) a hslash_a
      rw [splitParams.eq_def,
        show breakOnFirst ';' (lastSeg (frontPart u ++ a)) = (a, none) from by
          rw [hl, hfi1, List.nil_append]
          exact breakOnFirst_no_sep ';' a hnsa,
        hf, hfi2]
    · rw [if_pos (by simp [hpe]), List.append_assoc]
      have hnos : '/' ∉ a ++ ';' :: params := by
        intro hm
        rcases List.mem_append.mp hm with h | h
        · exact hslash_a h
        · rcases List.mem_cons.mp h with h | h
          · exact absurd h.symm (by decide)
          · exact hslash_par h
      obtain ⟨hl, hf⟩ :=
        lastSeg_append_no_slash (frontPart u) (a ++ ';' :: params) hnos
      rw [splitParams.eq_def,
        show breakOnFirst ';' (lastSeg (frontPart u ++ (a ++ ';' :: params)))
            = (a, some params) from by
          rw [hl, hfi1, List.nil_append]
          exact breakOnFirst_append ';' a params hnsa,
        hf, hfi2]

/-- The scheme-detection guard of `urlsplit` never fires on `s`: for the
text before the first `:` (if any), the scheme test fails. -/
def noSchemeAt (s : Str) : Prop :=
  ∀ b r, breakOnFirst ':' s = (b, some r) →
    ¬(b ≠ [] ∧ (b.headD ' ').isAlpha = true ∧ ∀ c ∈ b, c ∈ schemeChars)

theorem splitScheme_of_noSchemeAt (s : Str) (h : noSchemeAt s) :
    splitScheme s = ([], s) := by
  cases hr : (breakOnFirst ':' s).2 with
  | none =>
    rw [splitScheme.eq_def,
      show breakOnFirst ':' s = ((breakOnFirst ':' s).1, none) from by
        rw [← hr]]
  | some r =>
    rw [splitScheme.eq_def,
      show breakOnFirst ':' s = ((breakOnFirst ':' s).1, some r) from by
        rw [← hr]]
    dsimp only
    rw [if_neg (h (breakOnFirst ':' s).1 r (by rw [← hr]))]

theorem headD_append_of_ne_nil (a b : Str) (d : Char) (h : a ≠ []) :
    (a ++ b).headD d = a.headD d := by
  cases a with
  | nil => exact absurd rfl h
  | cons c r => rfl

theorem noSchemeAt_not_alpha (s : Str) (h : (s.headD ' ').isAlpha = false) :
    noSchemeAt s := by
  intro b r hbr hg
  obtain ⟨hb, hhead, _⟩ := hg
  have hs : s = b ++ ':' :: r := by
    have h2 : (breakOnFirst ':' s).2 = some r := congrArg Prod.snd hbr
    have := breakOnFirst_some ':' s r h2
    rwa [show (breakOnFirst ':' s).1 = b from congrArg Prod.fst hbr] at this
  rw [hs, headD_append_of_ne_nil b _ ' ' hb] at h
  rw [hhead] at h
  cases h

theorem noSchemeAt_append_right (x t : Str) (h : noSchemeAt (x ++ t)) :
    noSchemeAt x := by
  intro b r hbr hg
  have h2 : (breakOnFirst ':' x).2 = some r := congrArg Prod.snd hbr
  have hx : x = b ++ ':' :: r := by
    have := breakOnFirst_some ':' x r h2
    rwa [show (breakOnFirst ':' x).1 = b from congrArg Prod.fst hbr] at this
  have hnb : ':' ∉ b := by
    rw [show b = (breakOnFirst ':' x).1 from
      (congrArg Prod.fst hbr).symm]
    exact breakOnFirst_fst_no_sep ':' x
  have : breakOnFirst ':' (x ++ t) = (b, some (r ++ t)) := by
    rw [hx, List.append_assoc, List.cons_append]
    exact breakOnFirst_append ':' b (r ++ t) hnb
  exact h b (r ++ t) this hg

theorem noSchemeAt_append_tail (pp t : Str) (hpp : noSchemeAt pp)
    (ht : t = [] ∨ t.headD ' ' = '?' ∨ t.headD ' ' = '#') :
    noSchemeAt (pp ++ t) := by
  intro b r hbr hg
  cases hr : (breakOnFirst ':' pp).2 with
  | some r0 =>
    have hpp_eq : pp = (breakOnFirst ':' pp).1 ++ ':' :: r0 :=
      breakOnFirst_some ':' pp r0 hr
    have hnb : ':' ∉ (breakOnFirst ':' pp).1 := breakOnFirst_fst_no_sep ':' pp
    have hfull : breakOnFirst ':' (pp ++ t)
        = ((breakOnFirst ':' pp).1, some (r0 ++ t)) := by
      conv_lhs => rw [hpp_eq, List.append_assoc, List.cons_append]
      exact breakOnFirst_append ':' _ (r0 ++ t) hnb
    have hb : b = (breakOnFirst ':' pp).1 :=
      (congrArg Prod.fst (hbr.symm.trans hfull))
    exact hpp (breakOnFirst ':' pp).1 r0 (by rw [← hr]) (hb ▸ hg)
  | none =>
    obtain ⟨_, hnpp⟩ := breakOnFirst_none ':' pp hr
    have hfull : breakOnFirst ':' (pp ++ t)
        = (pp ++ (breakOnFirst ':' t).1, (breakOnFirst ':' t).2) :=
      breakOnFirst_append_left ':' pp t hnpp
    have hsome : (breakOnFirst ':' t).2 = some r :=
      (congrArg Prod.snd (hbr.symm.trans hfull)).symm
    have hbv : b = pp ++ (breakOnFirst ':' t).1 :=
      congrArg Prod.fst (hbr.symm.trans hfull)
    -- t contains a colon, so t is nonempty and starts with ? or #
    have htne : t ≠ [] := by
      intro he
      rw [he] at hsome
      simp [breakOnFirst] at hsome
    rcases ht with he | hh
    · exact htne he
    · -- the head of t lands in b and is not a scheme character
      obtain ⟨c0, t2, ht2⟩ : ∃ c0 t2, t = c0 :: t2 := by
        cases t with
        | nil => exact absurd rfl htne
        | cons c0 t2 => exact ⟨c0, t2, rfl⟩
      have hc0 : c0 = '?' ∨ c0 = '#' := by
        rw [ht2] at hh
        simpa using hh
      have hc0ne : ¬ c0 = ':' := by
        rcases hc0 with h | h <;> (subst h; decide)
      have hmem : c0 ∈ b := by
        rw [hbv, ht2]
        refine List.mem_append_right _ ?_
        rw [breakOnFirst, if_neg hc0ne]
        exact List.mem_cons_self c0 _
      obtain ⟨_, _, hall⟩ := hg
      have := hall c0 hmem
      rcases hc0 with h | h <;> (subst h; exact absurd this (by decide))

theorem splitScheme_valid (sch rest : Str) (h1 : sch ≠ [])
    (h2 : (sch.headD ' ').isAlpha = true)
    (h3 : ∀ c ∈ sch, c ∈ schemeChars) :
    splitScheme (sch ++ ':' :: rest) = (sch.map Char.toLower, rest) := by
  have hns : ':' ∉ sch := fun hm => absurd (h3 _ hm) (by decide)
  rw [splitScheme.eq_def, breakOnFirst_append ':' sch rest hns]
  dsimp only
  rw [if_pos ⟨h1, h2, h3⟩]

theorem cutFirst_cases (sep : Char) (s : Str) :
    (cutFirst sep s = (s, []) ∧ sep ∉ s) ∨
    (∃ b r, cutFirst sep s = (b, r) ∧ s = b ++ sep :: r ∧ sep ∉ b) := by
  cases hr : (breakOnFirst sep s).2 with
  | none =>
    left
    obtain ⟨h1, h2⟩ := breakOnFirst_none sep s hr
    constructor
    · rw [cutFirst.eq_def,
        show breakOnFirst sep s = ((breakOnFirst sep s).1, none) from by
          rw [← hr]]
      dsimp only
      rw [h1]
    · exact h2
  | some r =>
    right
    refine ⟨(breakOnFirst sep s).1, r, ?_, breakOnFirst_some sep s r hr,
      breakOnFirst_fst_no_sep sep s⟩
    rw [cutFirst.eq_def,
      show breakOnFirst sep s = ((breakOnFirst sep s).1, some r) from by
        rw [← hr]]

theorem cutFirst_no_sep (sep : Char) (s : Str) (h : sep ∉ s) :
    cutFirst sep s = (s, []) := by
  rw [cutFirst.eq_def, breakOnFirst_no_sep sep s h]

theorem cutFirst_append (sep : Char) (a b : Str) (h : sep ∉ a) :
    cutFirst sep (a ++ sep :: b) = (a, b) := by
  rw [cutFirst.eq_def, breakOnFirst_append sep a b h]

theorem cutFirst_fst_no_sep (sep : Char) (s : Str) :
    sep ∉ (cutFirst sep s).1 := by
  rcases cutFirst_cases sep s with ⟨h1, h2⟩ | ⟨b, r, h1, _, h3⟩
  · rw [h1]; exact h2
  · rw [h1]; exact h3

/-- The decomposition of `s` induced by `cutFirst`: the kept part is an
initial segment, and what was removed is empty or starts with `sep`. -/
theorem cutFirst_decomp (sep : Char) (s : Str) :
    ∃ t, s = (cutFirst sep s).1 ++ t ∧
      (t = [] ∨ t.headD ' ' = sep) := by
  rcases cutFirst_cases sep s with ⟨h1, _⟩ | ⟨b, r, h1, h2, _⟩
  · exact ⟨[], by rw [h1, List.append_nil], Or.inl rfl⟩
  · exact ⟨sep :: r, by rw [h1, h2], Or.inr rfl⟩

/-- Closure facts about scheme characters under lowercasing. -/
theorem schemeChars_facts : ∀ c ∈ schemeChars,
    Char.toLower c ∈ schemeChars ∧
    Char.toLower (Char.toLower c) = Char.toLower c ∧
    (Char.toLower c).isAlpha = c.isAlpha := by decide

/-- Full case analysis of the scheme-detection step on an arbitrary URL. -/
theorem splitScheme_cases (u : Str) :
    (splitScheme u = ([], u) ∧ noSchemeAt u) ∨
    (∃ b r, breakOnFirst ':' u = (b, some r) ∧ b ≠ [] ∧
      (b.headD ' ').isAlpha = true ∧ (∀ c ∈ b, c ∈ schemeChars) ∧
      splitScheme u = (b.map Char.toLower, r) ∧ u = b ++ ':' :: r) := by
  cases hr : (breakOnFirst ':' u).2 with
  | none =>
    left
    constructor
    · rw [splitScheme.eq_def,
        show breakOnFirst ':' u = ((breakOnFirst ':' u).1, none) from by
          rw [← hr]]
    · intro b r hbr
      have := congrArg Prod.snd hbr
      rw [hr] at this
      cases this
  | some r =>
    by_cases hg : (breakOnFirst ':' u).1 ≠ [] ∧
        ((breakOnFirst ':' u).1.headD ' ').isAlpha = true ∧
        ∀ c ∈ (breakOnFirst ':' u).1, c ∈ schemeChars
    · right
      refine ⟨(breakOnFirst ':' u).1, r, by rw [← hr], hg.1, hg.2.1, hg.2.2,
        ?_, breakOnFirst_some ':' u r hr⟩
      rw [splitScheme.eq_def,
        show breakOnFirst ':' u = ((breakOnFirst ':' u).1, some r) from by
          rw [← hr]]
      dsimp only
      rw [if_pos hg]
    · left
      constructor
      · rw [splitScheme.eq_def,
          show breakOnFirst ':' u = ((breakOnFirst ':' u).1, some r) from by
            rw [← hr]]
        dsimp only
        rw [if_neg hg]
      · intro b r2 hbr
        have hb : b = (breakOnFirst ':' u).1 :=
          (congrArg Prod.fst hbr).symm
        rw [hb]
        exact hg

/-! ## Well-formedness of `urlparse` output -/

/-- The invariants satisfied by every `urlparse` result, which make
`urlunparse` followed by `urlparse` the identity on components. -/
structure WFParse (p : ParseResult) : Prop where
  scheme_ok : p.scheme = [] ∨
    (p.scheme ≠ [] ∧ ((p.scheme.headD ' ').isAlpha = true) ∧
      (∀ c ∈ p.scheme, c ∈ schemeChars) ∧
      p.scheme.map Char.toLower = p.scheme)
  netloc_ok : ∀ c ∈ p.netloc, netlocDelim c = false
  path_ok : ∀ c ∈ p.path, c ≠ '?' ∧ c ≠ '#'
  params_ok : ∀ c ∈ p.params, c ≠ '/' ∧ c ≠ '?' ∧ c ≠ '#'
  path_slash : p.netloc ≠ [] →
    (p.path = [] ∧ p.params = []) ∨ p.path.take 1 = ['/']
  params_inv : (if p.scheme ∈ usesParams then splitParams (pathWithParams p)
    else (pathWithParams p, [])) = (p.path, p.params)
  no_scheme : p.scheme = [] → p.netloc = [] → noSchemeAt (pathWithParams p)

theorem headD_of_eq_append (x y t : Str) (d : Char) (h : x = y ++ t)
    (hy : y ≠ []) : x.headD d = y.headD d := by
  rw [h, headD_append_of_ne_nil y t d hy]

theorem take_one_of_headD (p : Str) (hp : p ≠ []) (h : p.headD ' ' = '/') :
    p.take 1 = ['/'] := by
  cases p with
  | nil => exact absurd rfl hp
  | cons c r => simp only [List.headD_cons] at h; simp [h]

theorem wf_scheme (u : Str) : schemePart u = [] ∨
    (schemePart u ≠ [] ∧ ((schemePart u).headD ' ').isAlpha = true ∧
      (∀ c ∈ schemePart u, c ∈ schemeChars) ∧
      (schemePart u).map Char.toLower = schemePart u) := by
  rcases splitScheme_cases u with ⟨h, _⟩ | ⟨b, r, _, hb, hhead, hmem, hs, _⟩
  · left; rw [schemePart, h]
  · right
    have hsp : schemePart u = b.map Char.toLower := by rw [schemePart, hs]
    rw [hsp]
    refine ⟨by simp [hb], ?_, ?_, ?_⟩
    · cases b with
      | nil => exact absurd rfl hb
      | cons c bs =>
        simp only [List.map_cons, List.headD_cons]
        rw [(schemeChars_facts c (hmem c (List.mem_cons_self c bs))).2.2]
        simpa using hhead
    · intro c hc
      rw [List.mem_map] at hc
      obtain ⟨x, hx, hcx⟩ := hc
      exact hcx ▸ (schemeChars_facts x (hmem x hx)).1
    · rw [List.map_map]
      apply List.map_congr_left
      intro x hx
      exact (schemeChars_facts x (hmem x hx)).2.1

theorem wf_netloc (u : Str) : ∀ c ∈ netlocOf u, netlocDelim c = false := by
  intro c hc
  rw [netlocOf] at hc
  by_cases hb : (rest1 u).take 2 = ['/', '/']
  · rw [if_pos hb] at hc
    have := List.mem_takeWhile_imp hc
    simpa using this
  · rw [if_neg hb] at hc
    cases hc

/-- When the netloc branch was taken, what follows the netloc is empty or
starts with a delimiter. -/
theorem rest2_head (u : Str) (hb : (rest1 u).take 2 = ['/', '/']) :
    rest2 u = [] ∨ netlocDelim ((rest2 u).headD ' ') = true := by
  rw [rest2, if_pos hb, splitNetloc]
  have := dropWhile_head_prop (fun c => !netlocDelim c) ((rest1 u).drop 2)
  rcases this with h | h
  · exact Or.inl h
  · right
    simpa using h

theorem fragment_of_rest2 (u : Str) :
    ∃ t, rest2 u = rest3 u ++ t ∧ (t = [] ∨ t.headD ' ' = '#') :=
  cutFirst_decomp '#' (rest2 u)

theorem path0_of_rest3 (u : Str) :
    ∃ t, rest3 u = path0Of u ++ t ∧ (t = [] ∨ t.headD ' ' = '?') :=
  cutFirst_decomp '?' (rest3 u)

theorem path0_of_rest2 (u : Str) :
    ∃ t, rest2 u = path0Of u ++ t ∧
      (t = [] ∨ t.headD ' ' = '?' ∨ t.headD ' ' = '#') := by
  obtain ⟨t2, h2, ht2⟩ := fragment_of_rest2 u
  obtain ⟨t1, h1, ht1⟩ := path0_of_rest3 u
  refine ⟨t1 ++ t2, by rw [h2, h1, List.append_assoc], ?_⟩
  rcases ht1 with h | h
  · subst h
    rcases ht2 with h | h
    · exact Or.inl (by simp [h])
    · exact Or.inr (Or.inr (by simpa using h))
  · have ht1ne : t1 ≠ [] := by
      intro he; rw [he] at h; simp at h
    exact Or.inr (Or.inl (by
      rw [headD_of_eq_append (t1 ++ t2) t1 t2 ' ' rfl ht1ne]
      exact h))

theorem path0_no_qmark (u : Str) : '?' ∉ path0Of u :=
  cutFirst_fst_no_sep '?' (rest3 u)

theorem headD_mem (p : Str) (d : Char) (hp : p ≠ []) : p.headD d ∈ p := by
  cases p with
  | nil => exact absurd rfl hp
  | cons c r => simp

theorem path0_no_hash (u : Str) : '#' ∉ path0Of u := by
  intro hmem
  obtain ⟨t, ht, _⟩ := path0_of_rest3 u
  apply cutFirst_fst_no_sep '#' (rest2 u)
  show '#' ∈ rest3 u
  rw [ht]
  exact List.mem_append_left t hmem

/-- When the netloc branch was taken, the path is empty or starts with a
slash. -/
theorem path0_start (u : Str) (hb : (rest1 u).take 2 = ['/', '/']) :
    path0Of u = [] ∨ (path0Of u).headD ' ' = '/' := by
  by_cases hp : path0Of u = []
  · exact Or.inl hp
  · right
    obtain ⟨t, ht, _⟩ := path0_of_rest2 u
    have hr2ne : rest2 u ≠ [] := by
      intro he; rw [he] at ht
      exact hp (List.append_eq_nil.mp ht.symm).1
    have hhead : (rest2 u).headD ' ' = (path0Of u).headD ' ' :=
      headD_of_eq_append (rest2 u) (path0Of u) t ' ' ht hp
    rcases rest2_head u hb with h | h
    · exact absurd h hr2ne
    · -- the head is a delimiter; ? and # are impossible for a nonempty path
      rw [hhead, netlocDelim] at h
      simp only [Bool.or_eq_true, beq_iff_eq] at h
      rcases h with (h1 | h1) | h1
      · exact h1
      · exact absurd (h1 ▸ headD_mem (path0Of u) ' ' hp) (path0_no_qmark u)
      · exact absurd (h1 ▸ headD_mem (path0Of u) ' ' hp) (path0_no_hash u)

theorem pp_facts (u : Str) :
    ((urlparse u).path, (urlparse u).params)
      = (if schemePart u ∈ usesParams then splitParams (path0Of u)
        else (path0Of u, [])) := rfl

/-- Rebuilding path and parameters recovers the split path, possibly
dropping one trailing `;`. -/
theorem pathWithParams_path0 (u : Str) :
    pathWithParams (urlparse u) = path0Of u ∨
    path0Of u = pathWithParams (urlparse u) ++ [';'] := by
  by_cases hu : schemePart u ∈ usesParams
  · have hsp : splitParams (path0Of u)
        = ((urlparse u).path, (urlparse u).params) := by
      have := pp_facts u; rw [if_pos hu] at this; exact this.symm
    rcases splitParams_eq (path0Of u) with ⟨h1, _⟩ | ⟨a, ps, hb, h1, h2⟩
    · have heq := hsp.symm.trans h1
      injection heq with hpa hps
      left
      rw [pathWithParams, if_neg (by rw [hps]; simp), hpa]
    · have heq := hsp.symm.trans h1
      injection heq with hpa hps
      by_cases hps0 : ps = []
      · right
        rw [pathWithParams, if_neg (by rw [hps, hps0]; simp), hpa]
        conv_lhs => rw [h2, hps0]
        rw [List.append_assoc]
      · left
        rw [pathWithParams, if_pos (by rw [hps]; simp [hps0]), hpa, hps]
        conv_rhs => rw [h2]
        rw [List.append_assoc]
  · have heq := pp_facts u
    rw [if_neg hu] at heq
    injection heq with hpa hps
    left
    rw [pathWithParams, if_neg (by rw [hps]; simp), hpa]

theorem mem_pathWithParams_of_path {c : Char} (p : ParseResult)
    (h : c ∈ p.path) : c ∈ pathWithParams p := by
  rw [pathWithParams]
  by_cases hp : p.params ≠ []
  · rw [if_pos hp]; exact List.mem_append_left _ h
  · rw [if_neg hp]; exact h

theorem mem_pathWithParams_of_params {c : Char} (p : ParseResult)
    (h : c ∈ p.params) : c ∈ pathWithParams p := by
  rw [pathWithParams]
  have hp : p.params ≠ [] := by intro he; rw [he] at h; cases h
  rw [if_pos hp]
  exact List.mem_append_right _ (List.mem_cons_of_mem _ h)

theorem mem_path0_of_pathWithParams {c : Char} (u : Str)
    (h : c ∈ pathWithParams (urlparse u)) : c ∈ path0Of u := by
  rcases pathWithParams_path0 u with h1 | h1
  · rwa [h1] at h
  · rw [h1]; exact List.mem_append_left _ h

theorem params_no_slash (u : Str) : '/' ∉ (urlparse u).params := by
  intro hmem
  by_cases hu : schemePart u ∈ usesParams
  · have hsp : splitParams (path0Of u)
        = ((urlparse u).path, (urlparse u).params) := by
      have := pp_facts u; rw [if_pos hu] at this; exact this.symm
    rcases splitParams_eq (path0Of u) with ⟨h1, _⟩ | ⟨a, ps, hb, h1, h2⟩
    · have heq := hsp.symm.trans h1
      injection heq with hpa hps
      rw [hps] at hmem; cases hmem
    · have heq := hsp.symm.trans h1
      injection heq with hpa hps
      have ha2 : (breakOnFirst ';' (lastSeg (path0Of u))).2 = some ps :=
        congrArg Prod.snd hb
      have hlsu : lastSeg (path0Of u)
          = (breakOnFirst ';' (lastSeg (path0Of u))).1 ++ ';' :: ps :=
        breakOnFirst_some ';' _ ps ha2
      apply slash_not_mem_lastSeg (path0Of u)
      rw [hlsu]
      exact List.mem_append_right _
        (List.mem_cons_of_mem _ (hps ▸ hmem))
  · have heq := pp_facts u
    rw [if_neg hu] at heq
    injection heq with hpa hps
    rw [hps] at hmem; cases hmem

/-- Every `urlparse` result is well formed. -/
theorem wf_urlparse (u : Str) : WFParse (urlparse u) := by
  refine ⟨?_, ?_, ?_, ?_, ?_, ?_, ?_⟩
  · exact wf_scheme u
  · exact wf_netloc u
  · intro c hc
    have h0 : c ∈ path0Of u :=
      mem_path0_of_pathWithParams u (mem_pathWithParams_of_path _ hc)
    exact ⟨fun he => path0_no_qmark u (he ▸ h0),
      fun he => path0_no_hash u (he ▸ h0)⟩
  · intro c hc
    have h0 : c ∈ path0Of u :=
      mem_path0_of_pathWithParams u (mem_pathWithParams_of_params _ hc)
    exact ⟨fun he => params_no_slash u (he ▸ hc),
      fun he => path0_no_qmark u (he ▸ h0),
      fun he => path0_no_hash u (he ▸ h0)⟩
  · intro hn
    have hb : (rest1 u).take 2 = ['/', '/'] := by
      by_contra hbc
      exact hn (by rw [show (urlparse u).netloc = netlocOf u from rfl,
        netlocOf, if_neg hbc])
    rcases path0_start u hb with h0 | h0
    · left
      have hpw : pathWithParams (urlparse u) = [] := by
        rcases pathWithParams_path0 u with h1 | h1
        · rw [h1, h0]
        · rw [h0] at h1
          exact absurd h1.symm (by simp)
      rw [pathWithParams] at hpw
      by_cases hp : (urlparse u).params ≠ []
      · rw [if_pos hp] at hpw
        exact absurd hpw (by simp)
      · rw [if_neg hp] at hpw
        exact ⟨hpw, not_ne_iff.mp hp⟩
    · right
      have hp0ne : path0Of u ≠ [] := by
        intro he; rw [he] at h0; simp at h0
      have hdecomp : ∃ y, path0Of u = (urlparse u).path ++ y ∧
          (y = [] ∨ y.headD ' ' = ';') := by
        rcases pathWithParams_path0 u with h1 | h1 <;>
          rw [pathWithParams] at h1
        · by_cases hp : (urlparse u).params ≠ []
          · rw [if_pos hp] at h1
            exact ⟨';' :: (urlparse u).params, h1.symm, Or.inr rfl⟩
          · rw [if_neg hp] at h1
            exact ⟨[], by rw [← h1, List.append_nil], Or.inl rfl⟩
        · by_cases hp : (urlparse u).params ≠ []
          · rw [if_pos hp] at h1
            exact ⟨';' :: (urlparse u).params ++ [';'], by
              rw [h1, List.append_assoc, List.cons_append], Or.inr rfl⟩
          · rw [if_neg hp] at h1
            exact ⟨[';'], h1, Or.inr rfl⟩
      obtain ⟨y, hy, hyh⟩ := hdecomp
      have hpne : (urlparse u).path ≠ [] := by
        intro he
        rw [he, List.nil_append] at hy
        rcases hyh with h2 | h2
        · rw [hy, h2] at hp0ne; exact hp0ne rfl
        · rw [hy] at h0
          rw [h2] at h0
          exact absurd h0 (by decide)
      apply take_one_of_headD _ hpne
      rw [← headD_of_eq_append (path0Of u) ((urlparse u).path) y ' ' hy hpne]
      exact h0
  · show (if (urlparse u).scheme ∈ usesParams then _ else _) = _
    rw [show (urlparse u).scheme = schemePart u from rfl]
    by_cases hu : schemePart u ∈ usesParams
    · rw [if_pos hu]
      apply splitParams_recombine (path0Of u)
      have := pp_facts u; rw [if_pos hu] at this; exact this.symm
    · rw [if_neg hu]
      have heq := pp_facts u
      rw [if_neg hu] at heq
      injection heq with hpa hps
      rw [pathWithParams, if_neg (by rw [hps]; simp), hpa, hps]
  · intro hs hn
    have hs0 : schemePart u = [] := hs
    have hleft : splitScheme u = ([], u) ∧ noSchemeAt u := by
      rcases splitScheme_cases u with h | ⟨b, r, _, hb, _, _, hsch, _⟩
      · exact h
      · exfalso
        have : schemePart u = b.map Char.toLower := by
          rw [schemePart, hsch]
        rw [hs0] at this
        exact hb (List.map_eq_nil_iff.mp this.symm)
    have hnos_p0 : noSchemeAt (path0Of u) := by
      by_cases hb : (rest1 u).take 2 = ['/', '/']
      · rcases path0_start u hb with h0 | h0
        · exact noSchemeAt_not_alpha _ (by rw [h0]; decide)
        · exact noSchemeAt_not_alpha _ (by rw [h0]; decide)
      · have hr1 : rest1 u = u := by
          rw [rest1, hleft.1]
        have hr2 : rest2 u = u := by
          rw [rest2, if_neg hb, hr1]
        obtain ⟨t, ht, _⟩ := path0_of_rest2 u
        rw [hr2] at ht
        exact noSchemeAt_append_right _ t (ht ▸ hleft.2)
    rcases pathWithParams_path0 u with h1 | h1
    · rwa [h1]
    · exact noSchemeAt_append_right _ [';'] (h1 ▸ hnos_p0)

/-! ## Reparsing an unparsed URL -/

theorem mem_pathWithParams {c : Char} (p : ParseResult)
    (h : c ∈ pathWithParams p) : c ∈ p.path ∨ c = ';' ∨ c ∈ p.params := by
  rw [pathWithParams] at h
  by_cases hp : p.params ≠ []
  · rw [if_pos hp] at h
    rcases List.mem_append.mp h with h | h
    · exact Or.inl h
    · rcases List.mem_cons.mp h with h | h
      · exact Or.inr (Or.inl h)
      · exact Or.inr (Or.inr h)
  · rw [if_neg hp] at h; exact Or.inl h

theorem pathWithParams_no_qmark (p : ParseResult) (hwf : WFParse p) :
    '?' ∉ pathWithParams p := by
  intro h
  rcases mem_pathWithParams p h with h | h | h
  · exact (hwf.path_ok _ h).1 rfl
  · exact absurd h (by decide)
  · exact (hwf.params_ok _ h).2.1 rfl

theorem pathWithParams_no_hash (p : ParseResult) (hwf : WFParse p) :
    '#' ∉ pathWithParams p := by
  intro h
  rcases mem_pathWithParams p h with h | h | h
  · exact (hwf.path_ok _ h).2 rfl
  · exact absurd h (by decide)
  · exact (hwf.params_ok _ h).2.2 rfl

theorem take_two_slash (p : Str) (h : p.take 2 = ['/', '/']) :
    p.headD ' ' = '/' ∧ p ≠ [] := by
  cases p with
  | nil => cases h
  | cons c r =>
    have : c = '/' := by
      have := congrArg (fun l => l.headD ' ') h
      simpa using this
    exact ⟨by simp [this], by simp⟩

theorem take_one_append (a b : Str) (ha : a ≠ []) :
    (a ++ b).take 1 = a.take 1 := by
  cases a with
  | nil => exact absurd rfl ha
  | cons c r => simp

theorem take_two_append_ne (pp S : Str) (hpp : ¬ pp.take 2 = ['/', '/'])
    (hS : S = [] ∨ S.headD ' ' = '?' ∨ S.headD ' ' = '#') :
    ¬ (pp ++ S).take 2 = ['/', '/'] := by
  intro h
  have hSh : S ≠ [] → S.headD ' ' ≠ '/' := by
    intro _ hc
    rcases hS with h1 | h1 | h1
    · rw [h1] at hc; exact absurd hc (by decide)
    · rw [h1] at hc; exact absurd hc (by decide)
    · rw [h1] at hc; exact absurd hc (by decide)
  cases pp with
  | nil =>
    rw [List.nil_append] at h
    obtain ⟨h1, h2⟩ := take_two_slash S h
    exact hSh h2 h1
  | cons c1 r1 =>
    cases r1 with
    | nil =>
      simp only [List.cons_append, List.nil_append] at h
      cases S with
      | nil => cases h
      | cons s1 s2 =>
        simp only [List.take_succ_cons, List.take_succ_cons, List.take_zero,
          List.cons.injEq] at h
        have : s1 = '/' := by
          rcases h with ⟨_, h2, _⟩
          exact h2
        exact hSh (by simp) (by simp [this])
    | cons c2 r2 =>
      apply hpp
      simp only [List.cons_append, List.take_succ_cons, List.take_zero] at h ⊢
      exact h

theorem splitNetloc_eq (n w : Str) (hn : ∀ c ∈ n, netlocDelim c = false)
    (hw : w = [] ∨ netlocDelim (w.headD ' ') = true) :
    splitNetloc (['/', '/'] ++ (n ++ w)) = (n, w) := by
  rw [splitNetloc]
  have hdrop : (['/', '/'] ++ (n ++ w)).drop 2 = n ++ w := rfl
  rw [hdrop]
  have hall : ∀ c ∈ n, (!netlocDelim c) = true := by
    intro c hc; simp [hn c hc]
  have hhead : w = [] ∨ (!netlocDelim (w.headD ' ')) = false := by
    rcases hw with h | h
    · exact Or.inl h
    · right; rw [h]; decide
  rw [takeWhile_append_all _ _ _ hall, takeWhile_head_false _ _ hhead,
    List.append_nil, dropWhile_append_all _ _ _ hall,
    dropWhile_head_false _ _ hhead]

/-- `urlunsplit` rewritten with the query-fragment suffix factored out. -/
theorem urlunsplit_eq (sch n pp q f u1 : Str)
    (hu1 : u1 = if n ≠ [] ∨ pp.take 2 = ['/', '/'] then
      ['/', '/'] ++ n ++
        (if pp ≠ [] ∧ pp.take 1 ≠ ['/'] then '/' :: pp else pp)
      else pp) :
    urlunsplit sch n pp q f
      = (if sch ≠ [] then
          sch ++ ':' :: (u1 ++ ((if q ≠ [] then '?' :: q else []) ++
            (if f ≠ [] then '#' :: f else [])))
        else u1 ++ ((if q ≠ [] then '?' :: q else []) ++
          (if f ≠ [] then '#' :: f else []))) := by
  rw [urlunsplit, ← hu1]
  by_cases h1 : sch ≠ [] <;> by_cases h2 : q ≠ [] <;>
    by_cases h3 : f ≠ [] <;> simp [h1, h2, h3, List.append_assoc]

/-- Reparsing recovers all components: for a well-formed parse result and a
replacement query containing no `#`, `urlparse (urlunparse p)` returns `p`
exactly. -/
theorem urlparse_urlunparse (p : ParseResult) (hwf : WFParse p)
    (hq : '#' ∉ p.query) : urlparse (urlunparse p) = p := by
  -- the trailing query-and-fragment suffix
  set S : Str := (if p.query ≠ [] then '?' :: p.query else []) ++
    (if p.fragment ≠ [] then '#' :: p.fragment else []) with hS
  have hS_shape : S = [] ∨ S.headD ' ' = '?' ∨ S.headD ' ' = '#' := by
    rw [hS]
    by_cases h1 : p.query ≠ []
    · rw [if_pos h1]; right; left; rfl
    · rw [if_neg h1, List.nil_append]
      by_cases h2 : p.fragment ≠ []
      · rw [if_pos h2]; right; right; rfl
      · rw [if_neg h2]; left; rfl
  -- the body after scheme and netloc
  set pp : Str := pathWithParams p with hpp
  have hppq : '?' ∉ pp := pathWithParams_no_qmark p hwf
  have hpph : '#' ∉ pp := pathWithParams_no_hash p hwf
  have hbody : ∃ core : Str,
      urlunparse p = (if p.scheme ≠ [] then p.scheme ++ ':' :: core
        else core) ∧
      ((p.netloc = [] ∧ ¬ pp.take 2 = ['/', '/'] ∧ core = pp ++ S) ∨
        (core = ['/', '/'] ++ (p.netloc ++ (pp ++ S)) ∧
          (pp = [] ∨ pp.headD ' ' = '/'))) := by
    by_cases hcond : p.netloc ≠ [] ∨ pp.take 2 = ['/', '/']
    · -- the // branch; the slash-prepend never fires for well-formed input
      have hppstart : pp = [] ∨ pp.headD ' ' = '/' := by
        rcases hcond with hn | hslash
        · rcases hwf.path_slash hn with ⟨h1, h2⟩ | h1
          · left; rw [hpp, pathWithParams, if_neg (by rw [h2]; simp), h1]
          · right
            have hpne : p.path ≠ [] := by
              intro he; rw [he] at h1; cases h1
            have : pp.headD ' ' = p.path.headD ' ' := by
              rw [hpp, pathWithParams]
              by_cases hpar : p.params ≠ []
              · rw [if_pos hpar]
                exact headD_append_of_ne_nil _ _ _ hpne
              · rw [if_neg hpar]
            rw [this]
            cases hc : p.path with
            | nil => exact absurd hc hpne
            | cons c r =>
              rw [hc] at h1
              simp only [List.take_succ_cons, List.take_zero,
                List.cons.injEq] at h1
              simp [h1.1]
        · exact Or.inr (take_two_slash pp hslash).1
      have hprep : (if pp ≠ [] ∧ pp.take 1 ≠ ['/'] then '/' :: pp else pp)
          = pp := by
        rcases hppstart with h | h
        · rw [if_neg (by rw [h]; simp)]
        · rw [if_neg (by
            intro hcontra
            obtain ⟨h1, h2⟩ := hcontra
            exact h2 (take_one_of_headD pp h1 h))]
      have hu1 : (['/', '/'] ++ p.netloc ++ pp : Str)
          = if p.netloc ≠ [] ∨ pp.take 2 = ['/', '/'] then
              ['/', '/'] ++ p.netloc ++
                (if pp ≠ [] ∧ pp.take 1 ≠ ['/'] then '/' :: pp else pp)
            else pp := by
        rw [if_pos hcond, hprep]
      refine ⟨['/', '/'] ++ (p.netloc ++ (pp ++ S)), ?_, ?_⟩
      · rw [urlunparse,
          urlunsplit_eq p.scheme p.netloc pp p.query p.fragment _ hu1, ← hS]
        rw [List.append_assoc, List.append_assoc]
      · exact Or.inr ⟨rfl, hppstart⟩
    · push_neg at hcond
      obtain ⟨hn, hslash⟩ := hcond
      have hu1 : (pp : Str)
          = if p.netloc ≠ [] ∨ pp.take 2 = ['/', '/'] then
              ['/', '/'] ++ p.netloc ++
                (if pp ≠ [] ∧ pp.take 1 ≠ ['/'] then '/' :: pp else pp)
            else pp := by
        rw [if_neg (by push_neg; exact ⟨hn, hslash⟩)]
      refine ⟨pp ++ S, ?_, Or.inl ⟨hn, hslash, rfl⟩⟩
      rw [urlunparse,
        urlunsplit_eq p.scheme p.netloc pp p.query p.fragment _ hu1, ← hS]
  obtain ⟨core, hA, hcore⟩ := hbody
  -- Phase 1: the scheme comes back unchanged
  have hscheme_split : splitScheme (urlunparse p) = (p.scheme, core) := by
    rcases hwf.scheme_ok with h0 | ⟨h1, h2, h3, h4⟩
    · rw [hA, if_neg (by rw [h0]; simp), h0]
      rcases hcore with ⟨hn, hslash, hc⟩ | ⟨hc, hstart⟩
      · rw [hc]
        exact splitScheme_of_noSchemeAt _
          (noSchemeAt_append_tail pp S (hwf.no_scheme h0 hn) hS_shape)
      · rw [hc]
        refine splitScheme_of_noSchemeAt _ (noSchemeAt_not_alpha _ ?_)
        exact (by decide : Char.isAlpha '/' = false)
    · rw [hA, if_pos h1, splitScheme_valid p.scheme core h1 h2 h3, h4]
  have hschemePart : schemePart (urlunparse p) = p.scheme :=
    congrArg Prod.fst hscheme_split
  have hrest1 : rest1 (urlunparse p) = core :=
    congrArg Prod.snd hscheme_split
  -- Phase 2: the netloc comes back unchanged
  have hnetloc_rest : netlocOf (urlunparse p) = p.netloc ∧
      rest2 (urlunparse p) = pp ++ S := by
    rcases hcore with ⟨hn, hslash, hc⟩ | ⟨hc, hstart⟩
    · have htk : ¬ (rest1 (urlunparse p)).take 2 = ['/', '/'] := by
        rw [hrest1, hc]
        exact take_two_append_ne pp S hslash hS_shape
      constructor
      · rw [netlocOf, if_neg htk, hn]
      · rw [rest2, if_neg htk, hrest1, hc]
    · have htk : (rest1 (urlunparse p)).take 2 = ['/', '/'] := by
        rw [hrest1, hc]; rfl
      have hsn : splitNetloc (rest1 (urlunparse p)) = (p.netloc, pp ++ S) := by
        rw [hrest1, hc]
        apply splitNetloc_eq p.netloc (pp ++ S) hwf.netloc_ok
        rcases hstart with h | h
        · rw [h, List.nil_append]
          rcases hS_shape with h1 | h1 | h1
          · exact Or.inl h1
          · right; rw [h1]; rfl
          · right; rw [h1]; rfl
        · right
          have hppne : pp ≠ [] := by
            intro he; rw [he] at h; exact absurd h (by decide)
          rw [headD_of_eq_append (pp ++ S) pp S ' ' rfl hppne, h]
          rfl
      constructor
      · rw [netlocOf, if_pos htk, hsn]
      · rw [rest2, if_pos htk, hsn]
  -- Phase 3: fragment
  have hqpart : rest3 (urlunparse p) = pp ++
        (if p.query ≠ [] then '?' :: p.query else []) ∧
      fragmentOf (urlunparse p) = p.fragment := by
    have hnh : '#' ∉ pp ++ (if p.query ≠ [] then '?' :: p.query else []) := by
      intro hmem
      rcases List.mem_append.mp hmem with h | h
      · exact hpph h
      · by_cases h1 : p.query ≠ []
        · rw [if_pos h1] at h
          rcases List.mem_cons.mp h with h | h
          · exact absurd h (by decide)
          · exact hq h
        · rw [if_neg h1] at h; cases h
    by_cases hf : p.fragment ≠ []
    · have hsplit : rest2 (urlunparse p)
          = (pp ++ (if p.query ≠ [] then '?' :: p.query else [])) ++
            '#' :: p.fragment := by
        rw [hnetloc_rest.2, hS, if_pos hf, ← List.append_assoc]
      constructor
      · rw [rest3, hsplit, cutFirst_append '#' _ _ hnh]
      · rw [fragmentOf, hsplit, cutFirst_append '#' _ _ hnh]
    · have hsplit : rest2 (urlunparse p)
          = pp ++ (if p.query ≠ [] then '?' :: p.query else []) := by
        rw [hnetloc_rest.2, hS, if_neg hf, List.append_nil]
      constructor
      · rw [rest3, hsplit, cutFirst_no_sep '#' _ hnh]
      · rw [fragmentOf, hsplit, cutFirst_no_sep '#' _ hnh]
        simpa using not_ne_iff.mp hf
  -- Phase 4: query and path
  have hpath_query : path0Of (urlunparse p) = pp ∧
      queryOf (urlunparse p) = p.query := by
    by_cases h1 : p.query ≠ []
    · have hsplit : rest3 (urlunparse p) = pp ++ '?' :: p.query := by
        rw [hqpart.1, if_pos h1]
      constructor
      · rw [path0Of, hsplit, cutFirst_append '?' _ _ hppq]
      · rw [queryOf, hsplit, cutFirst_append '?' _ _ hppq]
    · have hsplit : rest3 (urlunparse p) = pp := by
        rw [hqpart.1, if_neg h1, List.append_nil]
      constructor
      · rw [path0Of, hsplit, cutFirst_no_sep '?' _ hppq]
      · rw [queryOf, hsplit, cutFirst_no_sep '?' _ hppq]
        simpa using not_ne_iff.mp h1
  -- Assemble
  have hmk : urlparse (urlunparse p) = ⟨schemePart (urlunparse p),
      netlocOf (urlunparse p),
      (if schemePart (urlunparse p) ∈ usesParams
        then splitParams (path0Of (urlunparse p))
        else (path0Of (urlunparse p), [])).1,
      (if schemePart (urlunparse p) ∈ usesParams
        then splitParams (path0Of (urlunparse p))
        else (path0Of (urlunparse p), [])).2,
      queryOf (urlunparse p), fragmentOf (urlunparse p)⟩ := rfl
  rw [hmk, hschemePart, hnetloc_rest.1, hpath_query.1, hpath_query.2,
    hqpart.2]
  have hparams := hwf.params_inv
  rw [← hpp] at hparams
  rw [hparams]

/-! ## Characterizing `_augment_url` -/

/-- The action the `params` mapping takes on key `k`: `none` if untouched,
`some none` for deletion, `some (some v)` for setting `v`. -/
def psAct (ps : List (Str × Option Str)) (k : Str) : Option (Option Str) :=
  (ps.find? (fun kv => kv.1 == k)).map (·.2)

/-- The fate of one original entry under the parameter actions alone:
dropped when mapped to the absent sentinel, overwritten in place when set,
kept otherwise. -/
def actFate (ps : List (Str × Option Str)) (kv : Str × Str) :
    Option (Str × Str) :=
  match psAct ps kv.1 with
  | some none => none
  | some (some v) => some (kv.1, v)
  | none => some kv

/-- What happens to an original entry (specification side, per the spec's
wording): deleted when its key is in the removal set, else deleted when
mapped to the absent sentinel, overwritten in place when set, kept
otherwise. -/
def survAct (ps : List (Str × Option Str)) (rk : List Str)
    (kv : Str × Str) : Option (Str × Str) :=
  if kv.1 ∈ rk then none else actFate ps kv

/-- Which `params` entries introduce new keys (specification side): those
set to a real value whose key is not a surviving original key. -/
def newAct (origKeys : List Str) (rk : List Str) (kv : Str × Option Str) :
    Option (Str × Str) :=
  kv.2.bind fun v =>
    if kv.1 ∈ origKeys ∧ kv.1 ∉ rk then none else some (kv.1, v)

/-- The new entry contributed by one `params` item relative to the state
keys `ks`. -/
def newActKeys (ks : List Str) (kv : Str × Option Str) :
    Option (Str × Str) :=
  kv.2.bind fun v => if kv.1 ∈ ks then none else some (kv.1, v)

/-- The specification-side description of the augmented query (from the
spec: surviving original keys in their original order, then newly
introduced keys in the order supplied). -/
def specQuery (orig : List (Str × Str)) (ps : List (Str × Option Str))
    (rk : List Str) : List (Str × Str) :=
  orig.filterMap (survAct ps rk) ++
    ps.filterMap (newAct (orig.map (·.1)) rk)

theorem dictPop_filter (m : List (Str × Str)) (rk : List Str) :
    rk.foldl dictPop m = m.filter (fun kv => decide (kv.1 ∉ rk)) := by
  induction rk generalizing m with
  | nil => simp
  | cons k rest ih =>
    rw [List.foldl_cons, ih, dictPop, List.filter_filter]
    apply List.filter_congr
    intro kv _
    by_cases h1 : kv.1 = k <;> by_cases h2 : kv.1 ∈ rest <;>
      simp [h1, h2]

/-- The key list is unchanged by an in-place overwrite. -/
theorem keys_map_overwrite (m : List (Str × Str)) (k v : Str) :
    (m.map (fun p => if p.1 == k then (k, v) else p)).map (·.1)
      = m.map (·.1) := by
  rw [List.map_map]
  apply List.map_congr_left
  intro kv _
  by_cases h : kv.1 = k <;> simp [h]

theorem psAct_cons (k : Str) (act : Option Str)
    (rest : List (Str × Option Str)) (k2 : Str) :
    psAct ((k, act) :: rest) k2
      = if k = k2 then some act else psAct rest k2 := by
  by_cases h : k = k2
  · rw [if_pos h, psAct, List.find?_cons_of_pos _ (by simpa using h)]
    rfl
  · rw [if_neg h, psAct, List.find?_cons_of_neg _ (by simpa using h)]
    rfl

theorem psAct_of_not_mem (ps : List (Str × Option Str)) (k : Str)
    (h : k ∉ ps.map (·.1)) : psAct ps k = none := by
  have h2 : List.find? (fun kv => kv.1 == k) ps = none :=
    List.find?_eq_none.mpr (fun kv hkv hbeq =>
      h (List.mem_map.mpr ⟨kv, hkv, beq_iff_eq.mp hbeq⟩))
  rw [psAct, h2]
  rfl

theorem actFate_del (ps : List (Str × Option Str)) (kv : Str × Str)
    (h : psAct ps kv.1 = some none) : actFate ps kv = none := by
  rw [actFate, h]

theorem actFate_set (ps : List (Str × Option Str)) (kv : Str × Str)
    (v : Str) (h : psAct ps kv.1 = some (some v)) :
    actFate ps kv = some (kv.1, v) := by
  rw [actFate, h]

theorem actFate_keep (ps : List (Str × Option Str)) (kv : Str × Str)
    (h : psAct ps kv.1 = none) : actFate ps kv = some kv := by
  rw [actFate, h]

theorem actFate_cons_ne (k : Str) (act : Option Str)
    (rest : List (Str × Option Str)) (kv : Str × Str) (hne : kv.1 ≠ k) :
    actFate ((k, act) :: rest) kv = actFate rest kv := by
  rw [actFate, actFate, psAct_cons, if_neg (fun he => hne he.symm)]

theorem filterMap_filter_eq {α β : Type} (f : α → Option β) (p : α → Bool)
    (l : List α) :
    (l.filter p).filterMap f
      = l.filterMap (fun x => if p x then f x else none) := by
  induction l with
  | nil => rfl
  | cons x xs ih =>
    rw [List.filter_cons, List.filterMap_cons]
    by_cases h : p x
    · rw [if_pos h, List.filterMap_cons, if_pos h, ih]
    · rw [if_neg h, if_neg h, ih]

theorem mem_keys_dictPop (m : List (Str × Str)) (k k2 : Str) (h : k2 ≠ k) :
    (k2 ∈ (dictPop m k).map (·.1)) ↔ k2 ∈ m.map (·.1) := by
  rw [dictPop]
  simp only [List.mem_map, List.mem_filter]
  constructor
  · rintro ⟨x, ⟨hx, _⟩, hk⟩
    exact ⟨x, hx, hk⟩
  · rintro ⟨x, hx, hk⟩
    refine ⟨x, ⟨hx, ?_⟩, hk⟩
    simp only [Bool.not_eq_eq_eq_not, Bool.not_true, beq_eq_false_iff_ne,
      ne_eq]
    rw [hk]
    exact h

theorem any_key_iff (m : List (Str × Str)) (k : Str) :
    (m.any (fun p => p.1 == k)) = true ↔ k ∈ m.map (·.1) := by
  rw [List.any_eq_true]
  simp only [List.mem_map, beq_iff_eq]

/-- The fold of `params` over a dictionary state, characterized
specification-side.  Needs only that the `params` keys are distinct (they
come from a Python `dict`). -/
theorem foldl_paramStep (ps : List (Str × Option Str))
    (hnd : (ps.map (·.1)).Nodup) (m : List (Str × Str)) :
    ps.foldl paramStep m
      = m.filterMap (actFate ps) ++
        ps.filterMap (newActKeys (m.map (·.1))) := by
  induction ps generalizing m with
  | nil =>
    simp only [List.foldl_nil, List.filterMap_nil, List.append_nil]
    have hcg : ∀ kv ∈ m, actFate [] kv = some kv := by
      intro kv _
      rw [actFate, show psAct [] kv.1 = none from rfl]
    rw [List.filterMap_congr hcg, List.filterMap_some]
  | cons hd rest ih =>
    obtain ⟨k, act⟩ := hd
    rw [List.map_cons, List.nodup_cons] at hnd
    obtain ⟨hknot, hndr⟩ := hnd
    have hknot2 : (k : Str) ∉ rest.map (·.1) := hknot
    rw [List.foldl_cons, ih hndr]
    cases act with
    | none =>
      have hA : (paramStep m (k, none)).filterMap (actFate rest)
          = m.filterMap (actFate ((k, none) :: rest)) := by
        rw [show paramStep m (k, none) = dictPop m k from rfl, dictPop,
          filterMap_filter_eq]
        apply List.filterMap_congr
        intro kv _
        dsimp only
        by_cases h : kv.1 = k
        · rw [if_neg (by simp [h]),
            actFate_del _ kv (by rw [psAct_cons, if_pos h.symm])]
        · rw [if_pos (by simp [h]), actFate_cons_ne k none rest kv h]
      have hB : rest.filterMap
            (newActKeys ((paramStep m (k, none)).map (·.1)))
          = rest.filterMap (newActKeys (m.map (·.1))) := by
        apply List.filterMap_congr
        intro kv hkv
        have hne : kv.1 ≠ k := by
          intro he
          exact hknot2 (he ▸ List.mem_map.mpr ⟨kv, hkv, rfl⟩)
        rw [newActKeys, newActKeys]
        cases hv : kv.2 with
        | none => rfl
        | some v =>
          simp only [Option.some_bind]
          rw [show paramStep m (k, none) = dictPop m k from rfl]
          by_cases hmem : kv.1 ∈ m.map (·.1)
          · rw [if_pos ((mem_keys_dictPop m k kv.1 hne).mpr hmem),
              if_pos hmem]
          · rw [if_neg
              (fun hc => hmem ((mem_keys_dictPop m k kv.1 hne).mp hc)),
              if_neg hmem]
      have hC : ((k, none) :: rest).filterMap (newActKeys (m.map (·.1)))
          = rest.filterMap (newActKeys (m.map (·.1))) := by
        rw [List.filterMap_cons]
        rfl
      rw [hA, hB, hC]
    | some v =>
      by_cases hk : k ∈ m.map (·.1)
      · have hins : paramStep m (k, some v)
            = m.map (fun p => if p.1 == k then (k, v) else p) := by
          rw [show paramStep m (k, some v) = dictInsert m k v from rfl,
            dictInsert, if_pos ((any_key_iff m k).mpr hk)]
        have hA : (paramStep m (k, some v)).filterMap (actFate rest)
            = m.filterMap (actFate ((k, some v) :: rest)) := by
          rw [hins, List.filterMap_map]
          apply List.filterMap_congr
          intro kv _
          simp only [Function.comp_apply]
          by_cases h : kv.1 = k
          · rw [show (if (kv.1 == k) = true then (k, v) else kv) = (k, v)
                from by simp [h],
              actFate_keep rest (k, v) (psAct_of_not_mem rest k hknot2),
              actFate_set _ kv v (by rw [psAct_cons, if_pos h.symm]), h]
          · rw [show (if (kv.1 == k) = true then (k, v) else kv) = kv
                from by simp [h],
              actFate_cons_ne k (some v) rest kv h]
        have hB : rest.filterMap
              (newActKeys ((paramStep m (k, some v)).map (·.1)))
            = rest.filterMap (newActKeys (m.map (·.1))) := by
          rw [hins, keys_map_overwrite]
        have hC : ((k, some v) :: rest).filterMap
              (newActKeys (m.map (·.1)))
            = rest.filterMap (newActKeys (m.map (·.1))) := by
          rw [List.filterMap_cons,
            show newActKeys (m.map (·.1)) (k, some v) = none from by
              rw [show newActKeys (m.map (·.1)) (k, some v)
                = if k ∈ m.map (·.1) then none else some (k, v) from rfl,
                if_pos hk]]
        rw [hA, hB, hC]
      · have hins : paramStep m (k, some v) = m ++ [(k, v)] := by
          rw [show paramStep m (k, some v) = dictInsert m k v from rfl,
            dictInsert, if_neg (by
              intro hc
              exact hk ((any_key_iff m k).mp hc))]
        have hA : (paramStep m (k, some v)).filterMap (actFate rest)
            = m.filterMap (actFate ((k, some v) :: rest)) ++ [(k, v)] := by
          rw [hins, List.filterMap_append]
          have h1 : List.filterMap (actFate rest) [(k, v)] = [(k, v)] := by
            simp only [List.filterMap_cons, List.filterMap_nil]
            rw [actFate_keep rest (k, v) (psAct_of_not_mem rest k hknot2)]
          rw [h1]
          congr 1
          apply List.filterMap_congr
          intro kv hkv
          have hne : kv.1 ≠ k := by
            intro he
            exact hk (he ▸ List.mem_map.mpr ⟨kv, hkv, rfl⟩)
          exact (actFate_cons_ne k (some v) rest kv hne).symm
        have hkeys : (paramStep m (k, some v)).map (·.1)
            = m.map (·.1) ++ [k] := by
          rw [hins, List.map_append]
          rfl
        have hB : rest.filterMap
              (newActKeys ((paramStep m (k, some v)).map (·.1)))
            = rest.filterMap (newActKeys (m.map (·.1))) := by
          apply List.filterMap_congr
          intro kv hkv
          have hne : kv.1 ≠ k := by
            intro he
            exact hknot2 (he ▸ List.mem_map.mpr ⟨kv, hkv, rfl⟩)
          rw [newActKeys, newActKeys, hkeys]
          cases hv : kv.2 with
          | none => rfl
          | some v2 =>
            simp only [Option.some_bind]
            by_cases hmem : kv.1 ∈ m.map (·.1)
            · rw [if_pos (List.mem_append_left _ hmem), if_pos hmem]
            · rw [if_neg (by
                intro hc
                rcases List.mem_append.mp hc with h | h
                · exact hmem h
                · exact hne (by simpa using h)), if_neg hmem]
        have hC : ((k, some v) :: rest).filterMap
              (newActKeys (m.map (·.1)))
            = (k, v) :: rest.filterMap (newActKeys (m.map (·.1))) := by
          rw [List.filterMap_cons,
            show newActKeys (m.map (·.1)) (k, some v)
              = if k ∈ m.map (·.1) then none else some (k, v) from rfl,
            if_neg hk]
        rw [hA, hB, hC, List.append_assoc, List.singleton_append]

/-- The combined effect of the removal set and the parameter actions on
the parsed query dictionary is exactly the specification-side
`specQuery`. -/
theorem augmented_eq_spec (orig : List (Str × Str))
    (ps : List (Str × Option Str)) (rk : List Str)
    (hnd : (ps.map (·.1)).Nodup) :
    ps.foldl paramStep (rk.foldl dictPop orig) = specQuery orig ps rk := by
  rw [dictPop_filter, foldl_paramStep ps hnd, specQuery]
  congr 1
  · rw [filterMap_filter_eq]
    apply List.filterMap_congr
    intro kv _
    dsimp only
    rw [survAct]
    by_cases h : kv.1 ∈ rk
    · rw [if_pos h, if_neg (by simp [h])]
    · rw [if_neg h, if_pos (by simp [h])]
  · apply List.filterMap_congr
    intro kv _
    rw [newActKeys, newAct]
    cases hv : kv.2 with
    | none => rfl
    | some v =>
      simp only [Option.some_bind]
      have hiff : kv.1 ∈ (List.filter (fun kv => decide (kv.1 ∉ rk))
            orig).map (·.1)
          ↔ kv.1 ∈ orig.map (·.1) ∧ kv.1 ∉ rk := by
        simp only [List.mem_map, List.mem_filter, decide_eq_true_eq]
        constructor
        · rintro ⟨x, ⟨hx, hxr⟩, hk⟩
          exact ⟨⟨x, hx, hk⟩, hk ▸ hxr⟩
        · rintro ⟨⟨x, hx, hk⟩, hr⟩
          exact ⟨x, ⟨hx, hk ▸ hr⟩, hk⟩
      by_cases hmem : kv.1 ∈ orig.map (·.1) ∧ kv.1 ∉ rk
      · rw [if_pos (hiff.mpr hmem), if_pos hmem]
      · rw [if_neg (fun hc => hmem (hiff.mp hc)), if_neg hmem]

/-! ## The master theorem about `_augment_url` -/

theorem wf_with_query (p : ParseResult) (hwf : WFParse p) (q : Str) :
    WFParse { p with query := q } := by
  obtain ⟨h1, h2, h3, h4, h5, h6, h7⟩ := hwf
  exact ⟨h1, h2, h3, h4, h5, h6, h7⟩

theorem mem_joinSep {c : Char} (sep : Char) (xs : List Str)
    (h : c ∈ joinSep sep xs) : c = sep ∨ ∃ x ∈ xs, c ∈ x := by
  induction xs with
  | nil => cases h
  | cons x rest ih =>
    cases rest with
    | nil =>
      rw [show joinSep sep [x] = x from rfl] at h
      exact Or.inr ⟨x, List.mem_cons_self x [], h⟩
    | cons y ys =>
      rw [show joinSep sep (x :: y :: ys) = x ++ sep :: joinSep sep (y :: ys)
        from rfl] at h
      rcases List.mem_append.mp h with h | h
      · exact Or.inr ⟨x, List.mem_cons_self x _, h⟩
      · rcases List.mem_cons.mp h with h | h
        · exact Or.inl h
        · rcases ih h with h | ⟨z, hz, hcz⟩
          · exact Or.inl h
          · exact Or.inr ⟨z, List.mem_cons_of_mem x hz, hcz⟩

theorem mem_urlencode {c : Char} (l : List (Str × Str))
    (h : c ∈ urlencode l) :
    c = '&' ∨ c = '=' ∨ c = '+' ∨ alwaysSafe c = true ∨ c = '%' ∨
      isHexDigit c = true := by
  rw [urlencode] at h
  rcases mem_joinSep '&' _ h with h | ⟨x, hx, hcx⟩
  · exact Or.inl h
  · rw [List.mem_map] at hx
    obtain ⟨kv, _, hkv⟩ := hx
    subst hkv
    rcases List.mem_append.mp hcx with h | h
    · rcases mem_quote_plus h with h | h | h | h <;> simp [h]
    · rcases List.mem_cons.mp h with h | h
      · exact Or.inr (Or.inl h)
      · rcases mem_quote_plus h with h | h | h | h <;> simp [h]

theorem hash_not_mem_urlencode (l : List (Str × Str)) :
    '#' ∉ urlencode l := by
  intro h
  rcases mem_urlencode l h with h | h | h | h | h | h <;>
    exact absurd h (by decide)

/-- Everything `_augment_url` does, at the parsed level: all components
other than the query are unchanged, and the query becomes the
specification-side `specQuery` of the parsed original query. -/
theorem augment_url_parsed (u : Str) (ps : List (Str × Option Str))
    (rk : List Str) (hnd : (ps.map (·.1)).Nodup) :
    urlparse (augment_url u ps rk)
      = { urlparse u with query :=
          (urlencode (specQuery (pyDict (parse_qsl (urlparse u).query))
            ps rk)) } := by
  have h1 : augment_url u ps rk
      = urlunparse { urlparse u with query :=
          (urlencode (specQuery (pyDict (parse_qsl (urlparse u).query))
            ps rk)) } := by
    rw [show augment_url u ps rk
      = urlunparse { urlparse u with query :=
          (urlencode (ps.foldl paramStep
            (rk.foldl dictPop (pyDict (parse_qsl (urlparse u).query))))) }
      from rfl]
    rw [augmented_eq_spec _ ps rk hnd]
  rw [h1]
  apply urlparse_urlunparse
  · exact wf_with_query (urlparse u) (wf_urlparse u) _
  · exact hash_not_mem_urlencode _

/-- The query of the augmented URL parses back to exactly the
specification-side pair list. -/
theorem augment_url_query (u : Str) (ps : List (Str × Option Str))
    (rk : List Str) (hnd : (ps.map (·.1)).Nodup) :
    parse_qsl (urlparse (augment_url u ps rk)).query
      = specQuery (pyDict (parse_qsl (urlparse u).query)) ps rk := by
  rw [augment_url_parsed u ps rk hnd]
  exact parse_qsl_urlencode _

/-! ## The JioMeet client -/

/-- The provider tag (`Provider` enum in the source). -/
inductive Provider where
  | jiomeet
  | mock
deriving DecidableEq

/-- `MeetingInfo`; the creation timestamp is an abstract instant. -/
structure MeetingInfo where
  provider : Provider
  base_url : Str
  doctor_url : Str
  patient_url : Str
  created_at : Nat
  host_token : Option Str
deriving DecidableEq

/-- Python truthiness of an optional string: `None` and `""` are falsy. -/
def pyTruthy (o : Option Str) : Bool :=
  match o with
  | none => false
  | some s => !s.isEmpty

/-- The `JioMeetClient` state after `__init__`. -/
structure JioMeetClient where
  app_id : Option Str
  app_secret : Option Str
  subdomain : Option Str
  mock_mode : Bool
deriving DecidableEq

/-- `JioMeetClient.__init__`: mock mode is forced, or on when any of the
three credentials is falsy (`mock_mode or not all([app_id, app_secret,
subdomain])`). -/
def JioMeetClient.init (app_id app_secret subdomain : Option Str)
    (mock_mode : Bool) : JioMeetClient :=
  ⟨app_id, app_secret, subdomain,
    mock_mode ||
      !(pyTruthy app_id && pyTruthy app_secret && pyTruthy subdomain)⟩

/-- `JioMeetClient._build_meeting_info`: sanitize the base URL, then derive
the doctor and patient URLs.  `now` abstracts `datetime.now`. -/
def build_meeting_info (base_url doctor_name patient_name : Str)
    (host_token : Option Str) (provider : Provider) (now : Nat) :
    MeetingInfo :=
  let sanitized_base := augment_url base_url []
    [("displayName" : String).data, ("name" : String).data,
      ("autoJoin" : String).data, ("hostToken" : String).data]
  let doctor_url := augment_url sanitized_base
    [(("name" : String).data, some doctor_name),
      (("autoJoin" : String).data, some ("true" : String).data),
      (("hostToken" : String).data, host_token)] []
  let patient_url := augment_url sanitized_base
    [(("name" : String).data, some patient_name),
      (("autoJoin" : String).data, some ("true" : String).data),
      (("hostToken" : String).data, none)] []
  ⟨provider, sanitized_base, doctor_url, patient_url, now, host_token⟩

/-- Decimal digit character. -/
def decDigit (m : Nat) : Char := Char.ofNat (48 + m)

/-- Decimal representation of a natural number. -/
def decRepr (n : Nat) : Str :=
  if n < 10 then [decDigit n]
  else decRepr (n / 10) ++ [decDigit (n % 10)]
termination_by n
decreasing_by exact Nat.div_lt_self (by omega) (by omega)

/-- Python `f"{n:06d}"`: decimal, left-padded with zeros to width 6. -/
def format06d (n : Nat) : Str :=
  let d := decRepr n
  List.replicate (6 - d.length) '0' ++ d

/-- `self.subdomain or "mock.jiomeet.local"`: the subdomain when truthy,
the fixed fallback host otherwise. -/
def mockHost (c : JioMeetClient) : Str :=
  match c.subdomain with
  | some s => if s.isEmpty then ("mock.jiomeet.local" : String).data else s
  | none => ("mock.jiomeet.local" : String).data

/-- `JioMeetClient._create_mock_meeting`.  The two `uuid4()` draws are
abstracted as inputs: `uuidHex` is the `.hex` of the first draw and
`uuidInt` the `.int` of the second. -/
def create_mock_meeting (c : JioMeetClient)
    (doctor_name patient_name : Str) (uuidHex : Str) (uuidInt : Nat)
    (now : Nat) : MeetingInfo :=
  let base_host := mockHost c
  let base_guest_url :=
    ("https://" : String).data ++ base_host ++ ("/guest" : String).data
  let meeting_id := (uuidHex.take 10).map Char.toUpper
  let meeting_pin := format06d (uuidInt % 1000000)
  let base_with_params := augment_url base_guest_url
    [(("meetingId" : String).data, some meeting_id),
      (("pwd" : String).data, some meeting_pin)] []
  build_meeting_info base_with_params doctor_name patient_name
    (some ("mock-host-token" : String).data) Provider.mock now

/-- The observable parts of the provider HTTP response: status code, body
text, and the three JSON fields the client reads. -/
structure JMResponse where
  status_code : Nat
  text : Str
  meetingLink : Option Str
  guestMeetingLink : Option Str
  hostToken : Option Str
deriving DecidableEq

/-- The failures `create_meeting` can raise. -/
inductive MeetingError where
  | tokenError
  | apiError (status : Nat) (text : Str)
  | missingLink
deriving DecidableEq

/-- Python `a or b` on optional strings (`""` is falsy). -/
def pyOr (a b : Option Str) : Option Str :=
  match a with
  | some s => if s.isEmpty then b else some s
  | none => b

/-- `JioMeetClient.create_meeting`.  In mock mode no response is consulted;
in real mode the response decides the outcome exactly as in the source:
non-200 status raises with status and body, a missing/falsy meeting link
raises "missing meeting link", otherwise the meeting info is built. -/
def create_meeting (c : JioMeetClient)
    (doctor_name patient_name _description : Str) (uuidHex : Str)
    (uuidInt : Nat) (now : Nat) (resp : JMResponse) :
    Except MeetingError MeetingInfo :=
  if c.mock_mode then
    Except.ok (create_mock_meeting c doctor_name patient_name uuidHex
      uuidInt now)
  else if !(pyTruthy c.app_id && pyTruthy c.app_secret) then
    Except.error MeetingError.tokenError
  else if resp.status_code ≠ 200 then
    Except.error (MeetingError.apiError resp.status_code resp.text)
  else
    match pyOr resp.meetingLink resp.guestMeetingLink with
    | none => Except.error MeetingError.missingLink
    | some base_url =>
      if base_url.isEmpty then Except.error MeetingError.missingLink
      else Except.ok (build_meeting_info base_url doctor_name patient_name
        resp.hostToken Provider.jiomeet now)

/-! ## The appointment store -/

/-- `AppointmentState`. -/
structure AppointmentState where
  appointment_id : Str
  doctor_name : Str
  patient_name : Str
  created_at : Nat
  meeting : Option MeetingInfo
  last_error : Option Str
deriving DecidableEq

/-- The store holds at most one appointment. -/
abbrev StoreState := Option AppointmentState

/-- The failures store operations can raise (`ValueError` in the source,
distinguished by message). -/
inductive StoreError where
  | alreadyExists
  | notFound
deriving DecidableEq

/-- `AppointmentStore.get`. -/
def storeGet (s : StoreState) : Option AppointmentState := s

/-- `AppointmentStore.create`: fails if a record is present. -/
def storeCreate (s : StoreState) (st : AppointmentState) :
    Except StoreError StoreState :=
  match s with
  | some _ => Except.error StoreError.alreadyExists
  | none => Except.ok (some st)

/-- `AppointmentStore.update`: fails on an empty store, else replaces the
record with a copy carrying the meeting and a cleared error, returning the
new record alongside the new state. -/
def storeUpdate (s : StoreState) (m : MeetingInfo) :
    Except StoreError (AppointmentState × StoreState) :=
  match s with
  | none => Except.error StoreError.notFound
  | some a =>
    let a2 := { a with meeting := some m, last_error := none }
    Except.ok (a2, some a2)

/-- `AppointmentStore.set_error`: replace the record's `last_error` when a
record exists; silently do nothing otherwise. -/
def storeSetError (s : StoreState) (message : Str) : StoreState :=
  match s with
  | none => none
  | some a => some { a with last_error := some message }

/-- `AppointmentStore.delete`: clear unconditionally. -/
def storeDelete (_ : StoreState) : StoreState := none

/-- Store operations, for reasoning about operation sequences. -/
inductive StoreOp where
  | createOp (st : AppointmentState)
  | updateOp (m : MeetingInfo)
  | setErrorOp (msg : Str)
  | getOp
  | deleteOp

/-- The state transition of one store operation (a failed create or update
leaves the state unchanged). -/
def applyOp (s : StoreState) : StoreOp → StoreState
  | StoreOp.createOp st =>
    match storeCreate s st with
    | Except.ok s2 => s2
    | Except.error _ => s
  | StoreOp.updateOp m =>
    match storeUpdate s m with
    | Except.ok r => r.2
    | Except.error _ => s
  | StoreOp.setErrorOp msg => storeSetError s msg
  | StoreOp.getOp => s
  | StoreOp.deleteOp => storeDelete s

/-! ## Concrete sample data for witnesses -/

def sampleState : AppointmentState :=
  ⟨("appt-1" : String).data, ("Dr A" : String).data, ("Pat B" : String).data,
    0, none, none⟩

def sampleMeeting : MeetingInfo := ⟨Provider.mock, [], [], [], 0, none⟩

def sampleResp : JMResponse := ⟨500, ("boom" : String).data, none, none, none⟩

def c1url : Str := ("https://host/p?a=1&b=2" : String).data

/-! ## Claim C1 -/

/-- C1: for every URL, parameter mapping (modelled as an association list
with distinct keys, as a Python dict has) and removal set, `_augment_url`
leaves scheme, netloc (host), path, params, and fragment unchanged, and the
query of the result parses exactly to the specification-side description
`specQuery`: the surviving original keys in their original order (keys in
the removal set deleted, keys mapped to the `None` sentinel deleted, keys
set in `params` overwritten in place), followed by the newly introduced
keys in the order supplied. -/
theorem C1_augment_url_spec (u : Str) (ps : List (Str × Option Str))
    (rk : List Str) (hnd : (ps.map (·.1)).Nodup) :
    (urlparse (augment_url u ps rk)).scheme = (urlparse u).scheme ∧
    (urlparse (augment_url u ps rk)).netloc = (urlparse u).netloc ∧
    (urlparse (augment_url u ps rk)).path = (urlparse u).path ∧
    (urlparse (augment_url u ps rk)).params = (urlparse u).params ∧
    (urlparse (augment_url u ps rk)).fragment = (urlparse u).fragment ∧
    parse_qsl (urlparse (augment_url u ps rk)).query
      = specQuery (pyDict (parse_qsl (urlparse u).query)) ps rk := by
  have h := augment_url_parsed u ps rk hnd
  exact ⟨by rw [h], by rw [h], by rw [h], by rw [h], by rw [h],
    augment_url_query u ps rk hnd⟩

theorem C1_augment_url_spec_witness :
    (([(("b" : String).data, some ("9" : String).data),
        (("c" : String).data, (none : Option Str))].map (·.1)).Nodup) ∧
    parse_qsl (urlparse (augment_url c1url
        [(("b" : String).data, some ("9" : String).data),
          (("c" : String).data, none)] [("a" : String).data])).query
      = specQuery (pyDict (parse_qsl (urlparse c1url).query))
          [(("b" : String).data, some ("9" : String).data),
            (("c" : String).data, none)] [("a" : String).data] :=
  ⟨by decide,
    (C1_augment_url_spec c1url
      [(("b" : String).data, some ("9" : String).data),
        (("c" : String).data, none)] [("a" : String).data]
      (by decide)).2.2.2.2.2⟩

/-! ## Claim C5 -/

/-- C5: the constructed client operates in mock mode iff at least one of
the three credentials is absent (Python-falsy: `None` or the empty string,
matching how missing environment variables arrive) or the mock-mode
override flag is set. -/
theorem C5_mock_mode_iff (app_id app_secret subdomain : Option Str)
    (mock_flag : Bool) :
    (JioMeetClient.init app_id app_secret subdomain mock_flag).mock_mode
        = true
      ↔ (mock_flag = true ∨ pyTruthy app_id = false ∨
          pyTruthy app_secret = false ∨ pyTruthy subdomain = false) := by
  cases mock_flag <;>
    rcases Bool.eq_false_or_eq_true (pyTruthy app_id) with hA | hA <;>
      rcases Bool.eq_false_or_eq_true (pyTruthy app_secret) with hS | hS <;>
        rcases Bool.eq_false_or_eq_true (pyTruthy subdomain) with hD | hD <;>
          simp [JioMeetClient.init, hA, hS, hD]

/-! ## Claim C6 -/

/-- C6: in real mode (a client whose constructor selected non-mock
operation), `create_meeting` fails with the provider error carrying the
HTTP status and response body iff the response status is not 200; and when
the status is 200 but the response carries neither a `meetingLink` nor a
`guestMeetingLink` field, it fails with the missing-meeting-link error. -/
theorem C6_real_mode_errors (app_id app_secret subdomain : Option Str)
    (mock_flag : Bool)
    (hmock : (JioMeetClient.init app_id app_secret subdomain
      mock_flag).mock_mode = false)
    (dn pn ds uh : Str) (ui now : Nat) (resp : JMResponse) :
    (create_meeting (JioMeetClient.init app_id app_secret subdomain
          mock_flag) dn pn ds uh ui now resp
        = Except.error (MeetingError.apiError resp.status_code resp.text)
      ↔ resp.status_code ≠ 200) ∧
    (resp.status_code = 200 → resp.meetingLink = none →
      resp.guestMeetingLink = none →
      create_meeting (JioMeetClient.init app_id app_secret subdomain
          mock_flag) dn pn ds uh ui now resp
        = Except.error MeetingError.missingLink) := by
  have hcred : pyTruthy app_id = true ∧ pyTruthy app_secret = true := by
    simp only [JioMeetClient.init] at hmock
    rcases Bool.eq_false_or_eq_true (pyTruthy app_id) with hA | hA <;>
      rcases Bool.eq_false_or_eq_true (pyTruthy app_secret) with hS | hS <;>
        simp [hA, hS] at hmock ⊢
  simp only [create_meeting]
  rw [if_neg (by rw [hmock]; exact Bool.false_ne_true)]
  rw [if_neg (by
    show ¬(!(pyTruthy app_id && pyTruthy app_secret)) = true
    rw [hcred.1, hcred.2]
    simp)]
  constructor
  · constructor
    · intro h h200
      rw [if_neg (by rw [h200]; simp)] at h
      cases hp : pyOr resp.meetingLink resp.guestMeetingLink with
      | none => rw [hp] at h; simp at h
      | some b =>
        rw [hp] at h
        by_cases hb : b.isEmpty = true
        · simp only [hb, if_true] at h
          simp at h
        · simp only [hb] at h
          rw [if_neg (by simp [hb])] at h
          simp at h
    · intro h
      rw [if_pos h]
  · intro h200 hml hgl
    rw [if_neg (by rw [h200]; simp)]
    rw [show pyOr resp.meetingLink resp.guestMeetingLink = none from by
      rw [hml, hgl]; rfl]

theorem C6_real_mode_errors_witness :
    ((JioMeetClient.init (some ("i" : String).data)
        (some ("s" : String).data) (some ("d" : String).data)
        false).mock_mode = false) ∧
    create_meeting (JioMeetClient.init (some ("i" : String).data)
        (some ("s" : String).data) (some ("d" : String).data) false)
        [] [] [] [] 0 0 sampleResp
      = Except.error (MeetingError.apiError sampleResp.status_code
          sampleResp.text) :=
  ⟨by decide,
    (C6_real_mode_errors (some ("i" : String).data)
      (some ("s" : String).data) (some ("d" : String).data) false
      (by decide) [] [] [] [] 0 0 sampleResp).1.mpr (by decide)⟩

/-! ## Claim C7 -/

/-- C7: `AppointmentStore.update` fails with not-found exactly when the
store holds no record; otherwise it replaces the record with a copy whose
`meeting` is the given value and whose `last_error` is cleared, and returns
that new record, which is exactly what a subsequent `get` returns. -/
theorem C7_store_update (s : StoreState) (m : MeetingInfo) :
    (storeUpdate s m = Except.error StoreError.notFound ↔ s = none) ∧
    (∀ a, s = some a →
      storeUpdate s m = Except.ok
        ({ a with meeting := some m, last_error := none },
          some { a with meeting := some m, last_error := none })) ∧
    (∀ a2 s2, storeUpdate s m = Except.ok (a2, s2) → storeGet s2 = some a2) := by
  refine ⟨⟨?_, ?_⟩, ?_, ?_⟩
  · intro h
    cases s with
    | none => rfl
    | some a =>
      simp only [storeUpdate] at h
      exact absurd h (by simp)
  · intro h
    subst h
    rfl
  · intro a ha
    subst ha
    rfl
  · intro a2 s2 h
    cases s with
    | none =>
      simp only [storeUpdate] at h
      exact absurd h (by simp)
    | some a =>
      simp only [storeUpdate, Except.ok.injEq, Prod.mk.injEq] at h
      rw [← h.1, ← h.2]
      rfl

def sampleUpdated : AppointmentState :=
  { sampleState with meeting := some sampleMeeting, last_error := none }

theorem C7_store_update_witness :
    (some sampleState = some sampleState) ∧
    storeUpdate (some sampleState) sampleMeeting
      = Except.ok (sampleUpdated, some sampleUpdated) :=
  ⟨rfl, (C7_store_update (some sampleState) sampleMeeting).2.1 sampleState rfl⟩

/-! ## Claim C8 -/

theorem applyOp_ne_none (s : StoreState) (op : StoreOp) (hs : s ≠ none)
    (hop : op ≠ StoreOp.deleteOp) : applyOp s op ≠ none := by
  rcases s with _ | a
  · exact absurd rfl hs
  · cases op with
    | createOp st => simp [applyOp, storeCreate]
    | updateOp m => simp [applyOp, storeUpdate]
    | setErrorOp msg => simp [applyOp, storeSetError]
    | getOp => simp [applyOp]
    | deleteOp => exact absurd rfl hop

theorem foldl_applyOp_ne_none (ops : List StoreOp) (s : StoreState)
    (hs : s ≠ none) (hops : ∀ op ∈ ops, op ≠ StoreOp.deleteOp) :
    ops.foldl applyOp s ≠ none := by
  induction ops generalizing s with
  | nil => exact hs
  | cons op rest ih =>
    exact ih (applyOp s op)
      (applyOp_ne_none s op hs (hops op (List.mem_cons_self _ _)))
      (fun o ho => hops o (List.mem_cons_of_mem _ ho))

/-- C8: `AppointmentStore.create` fails with already-exists iff a record is
present, and otherwise stores the given state as the sole record; in
particular, after a successful create, any further create fails as long as
no delete intervened (modelled as an arbitrary sequence of non-delete store
operations). -/
theorem C8_store_create (s : StoreState) (st : AppointmentState) :
    (storeCreate s st = Except.error StoreError.alreadyExists ↔ s ≠ none) ∧
    (s = none → storeCreate s st = Except.ok (some st)) ∧
    (∀ (s0 s1 : StoreState) (st0 st1 : AppointmentState)
        (ops : List StoreOp),
      storeCreate s0 st0 = Except.ok s1 →
      (∀ op ∈ ops, op ≠ StoreOp.deleteOp) →
      storeCreate (ops.foldl applyOp s1) st1
        = Except.error StoreError.alreadyExists) := by
  refine ⟨⟨?_, ?_⟩, ?_, ?_⟩
  · intro h
    cases s with
    | none =>
      simp only [storeCreate] at h
      exact absurd h (by simp)
    | some a => simp
  · intro h
    cases s with
    | none => exact absurd rfl h
    | some a => rfl
  · intro h
    subst h
    rfl
  · intro s0 s1 st0 st1 ops hok hops
    have hs1 : s1 ≠ none := by
      cases s0 with
      | none =>
        simp only [storeCreate, Except.ok.injEq] at hok
        rw [← hok]
        simp
      | some a =>
        simp only [storeCreate] at hok
        exact absurd hok (by simp)
    have hne := foldl_applyOp_ne_none ops s1 hs1 hops
    cases hfold : ops.foldl applyOp s1 with
    | none => exact absurd hfold hne
    | some a => rfl

theorem C8_store_create_witness :
    ((none : StoreState) = none) ∧
    storeCreate (none : StoreState) sampleState = Except.ok (some sampleState) ∧
    storeCreate ([StoreOp.getOp].foldl applyOp (some sampleState)) sampleState
      = Except.error StoreError.alreadyExists :=
  ⟨rfl, (C8_store_create none sampleState).2.1 rfl,
    (C8_store_create none sampleState).2.2 none (some sampleState)
      sampleState sampleState [StoreOp.getOp] rfl
      (fun op hop => by
        rw [List.mem_singleton] at hop
        subst hop
        intro hc
        exact StoreOp.noConfusion hc)⟩

/-! ## Claim C9 -/

/-- C9: `AppointmentStore.set_error` never fails: on a record it replaces
only the `last_error` field with the given message (the record-update form
shows every other field, `meeting` included, is carried over unchanged);
on an empty store it is a silent no-op. -/
theorem C9_store_set_error (s : StoreState) (msg : Str) :
    (s = none → storeSetError s msg = none) ∧
    (∀ a, s = some a →
      storeSetError s msg = some { a with last_error := some msg }) := by
  constructor
  · intro h
    subst h
    rfl
  · intro a h
    subst h
    rfl

theorem C9_store_set_error_witness :
    (some sampleState = some sampleState) ∧
    storeSetError (some sampleState) ("x" : String).data
      = some { sampleState with last_error := some ("x" : String).data } :=
  ⟨rfl, (C9_store_set_error (some sampleState) ("x" : String).data).2
    sampleState rfl⟩

/-! ## Key membership in the augmented query (for C2) -/

theorem survAct_fst (ps : List (Str × Option Str)) (rk : List Str)
    (kv : Str × Str) (e : Str × Str) (h : survAct ps rk kv = some e) :
    e.1 = kv.1 := by
  rw [survAct] at h
  by_cases hr : kv.1 ∈ rk
  · rw [if_pos hr] at h
    exact absurd h (by simp)
  · rw [if_neg hr] at h
    cases hps : psAct ps kv.1 with
    | none =>
      rw [actFate_keep ps kv hps] at h
      injection h with h1
      rw [← h1]
    | some ov =>
      cases ov with
      | none =>
        rw [actFate_del ps kv hps] at h
        exact absurd h (by simp)
      | some v =>
        rw [actFate_set ps kv v hps] at h
        injection h with h1
        rw [← h1]

theorem newAct_fst (ks rk : List Str) (kv : Str × Option Str)
    (e : Str × Str) (h : newAct ks rk kv = some e) : e.1 = kv.1 := by
  rw [newAct] at h
  cases hv : kv.2 with
  | none =>
    rw [hv] at h
    exact absurd h (by simp)
  | some v =>
    rw [hv] at h
    simp only [Option.some_bind] at h
    by_cases hc : kv.1 ∈ ks ∧ kv.1 ∉ rk
    · rw [if_pos hc] at h
      exact absurd h (by simp)
    · rw [if_neg hc] at h
      injection h with h1
      rw [← h1]

/-- A key of the augmented query is either an original key outside the
removal set, or a key set to a real value in `params`. -/
theorem mem_keys_specQuery (orig : List (Str × Str))
    (ps : List (Str × Option Str)) (rk : List Str) (k : Str)
    (hk : k ∈ (specQuery orig ps rk).map (·.1)) :
    (k ∈ orig.map (·.1) ∧ k ∉ rk) ∨ ∃ v, (k, some v) ∈ ps := by
  rw [specQuery, List.map_append] at hk
  rcases List.mem_append.1 hk with h | h
  · left
    rcases List.mem_map.1 h with ⟨e, he, hek⟩
    rcases List.mem_filterMap.1 he with ⟨kv, hkv, hact⟩
    have hfst : e.1 = kv.1 := survAct_fst ps rk kv e hact
    rw [survAct] at hact
    by_cases hr : kv.1 ∈ rk
    · rw [if_pos hr] at hact
      exact absurd hact (by simp)
    · rw [if_neg hr] at hact
      have hk1 : kv.1 = k := by rw [← hfst]; exact hek
      exact ⟨List.mem_map.2 ⟨kv, hkv, hk1⟩, hk1 ▸ hr⟩
  · right
    rcases List.mem_map.1 h with ⟨e, he, hek⟩
    rcases List.mem_filterMap.1 he with ⟨⟨k0, v0⟩, hkv, hact⟩
    rw [newAct] at hact
    cases v0 with
    | none => exact absurd hact (by simp)
    | some v =>
      simp only [Option.some_bind] at hact
      by_cases hc : k0 ∈ orig.map (·.1) ∧ k0 ∉ rk
      · rw [if_pos hc] at hact
        exact absurd hact (by simp)
      · rw [if_neg hc] at hact
        injection hact with h1
        subst h1
        have hek' : k0 = k := hek
        subst hek'
        exact ⟨v, hkv⟩

/-- A `params` key set to a real value and not surviving from the original
query appears in the augmented query (as a newly introduced key). -/
theorem mem_specQuery_new (orig : List (Str × Str))
    (ps : List (Str × Option Str)) (rk : List Str) (k v : Str)
    (hkv : (k, some v) ∈ ps) (hno : ¬(k ∈ orig.map (·.1) ∧ k ∉ rk)) :
    (k, v) ∈ specQuery orig ps rk := by
  rw [specQuery]
  refine List.mem_append.2 (Or.inr (List.mem_filterMap.2
    ⟨(k, some v), hkv, ?_⟩))
  rw [newAct]
  simp only [Option.some_bind]
  rw [if_neg hno]

/-! ## Keys of the Python dict model -/

theorem mem_keys_dictInsert (m : List (Str × Str)) (k0 v0 k : Str) :
    k ∈ (dictInsert m k0 v0).map (·.1) ↔ k ∈ m.map (·.1) ∨ k = k0 := by
  rw [dictInsert]
  by_cases h : m.any (fun p => p.1 == k0) = true
  · rw [if_pos h, keys_map_overwrite]
    have hk0 : k0 ∈ m.map (·.1) := (any_key_iff m k0).1 h
    constructor
    · exact Or.inl
    · rintro (h2 | rfl)
      · exact h2
      · exact hk0
  · rw [if_neg h]
    simp [List.map_append]

theorem mem_keys_foldl_dictInsert (l : List (Str × Str)) :
    ∀ (m : List (Str × Str)) (k : Str),
      (k ∈ (l.foldl (fun m kv => dictInsert m kv.1 kv.2) m).map (·.1))
        ↔ k ∈ m.map (·.1) ∨ k ∈ l.map (·.1) := by
  induction l with
  | nil => intro m k; simp
  | cons kv rest ih =>
    intro m k
    rw [List.foldl_cons, ih, mem_keys_dictInsert, List.map_cons,
      List.mem_cons, or_assoc]

theorem mem_keys_pyDict (l : List (Str × Str)) (k : Str) :
    k ∈ (pyDict l).map (·.1) ↔ k ∈ l.map (·.1) := by
  rw [pyDict, mem_keys_foldl_dictInsert]
  simp

/-! ## Claim C2 -/

/-- A key named in the removal set of the sanitizing `_augment_url` call is
absent from the sanitized base URL's query dictionary. -/
theorem sanitized_no_removed_key (base k : Str)
    (hk : k ∈ [("displayName" : String).data, ("name" : String).data,
      ("autoJoin" : String).data, ("hostToken" : String).data]) :
    k ∉ (pyDict (parse_qsl (urlparse (augment_url base []
      [("displayName" : String).data, ("name" : String).data,
        ("autoJoin" : String).data,
        ("hostToken" : String).data])).query)).map (·.1) := by
  intro hmem
  rw [mem_keys_pyDict, augment_url_query base _ _ (by simp)] at hmem
  rcases mem_keys_specQuery _ _ _ _ hmem with ⟨_, hnot⟩ | ⟨v, hv⟩
  · exact hnot hk
  · exact absurd hv (List.not_mem_nil _)

/-- C2: for every base URL (including one already carrying `name`,
`autoJoin` or `hostToken` parameters), doctor and patient name, and
optional host token, the `MeetingInfo` built by `_build_meeting_info` has a
patient URL whose query never contains a `hostToken` parameter, and when a
host token is present (any non-`None` value) the doctor URL differs from
the patient URL. -/
theorem C2_build_meeting_info (base_url doctor_name patient_name : Str)
    (host_token : Option Str) (provider : Provider) (now : Nat) :
    (("hostToken" : String).data ∉
      (parse_qsl (urlparse (build_meeting_info base_url doctor_name
          patient_name host_token provider now).patient_url).query).map
        (·.1)) ∧
    (∀ t, host_token = some t →
      (build_meeting_info base_url doctor_name patient_name host_token
          provider now).doctor_url
        ≠ (build_meeting_info base_url doctor_name patient_name host_token
            provider now).patient_url) := by
  simp only [build_meeting_info]
  have hpat : ("hostToken" : String).data ∉
      (parse_qsl (urlparse (augment_url
        (augment_url base_url []
          [("displayName" : String).data, ("name" : String).data,
            ("autoJoin" : String).data, ("hostToken" : String).data])
        [(("name" : String).data, some patient_name),
          (("autoJoin" : String).data, some ("true" : String).data),
          (("hostToken" : String).data, none)] [])).query).map (·.1) := by
    intro hmem
    rw [augment_url_query _ _ _ (by
      show ([("name" : String).data, ("autoJoin" : String).data,
        ("hostToken" : String).data] : List Str).Nodup
      decide)] at hmem
    rcases mem_keys_specQuery _ _ _ _ hmem with ⟨hin, _⟩ | ⟨v, hv⟩
    · exact sanitized_no_removed_key base_url _ (by decide) hin
    · simp only [List.mem_cons, List.not_mem_nil, or_false] at hv
      rcases hv with h | h | h
      · injection h with ha hb
        exact absurd ha (by decide)
      · injection h with ha hb
        exact absurd ha (by decide)
      · injection h with ha hb
        exact absurd hb (by simp)
  refine ⟨hpat, ?_⟩
  intro t ht heq
  subst ht
  have hdoc : ("hostToken" : String).data ∈
      (parse_qsl (urlparse (augment_url
        (augment_url base_url []
          [("displayName" : String).data, ("name" : String).data,
            ("autoJoin" : String).data, ("hostToken" : String).data])
        [(("name" : String).data, some doctor_name),
          (("autoJoin" : String).data, some ("true" : String).data),
          (("hostToken" : String).data, some t)] [])).query).map (·.1) := by
    rw [augment_url_query _ _ _ (by
      show ([("name" : String).data, ("autoJoin" : String).data,
        ("hostToken" : String).data] : List Str).Nodup
      decide)]
    refine List.mem_map.2 ⟨(("hostToken" : String).data, t), ?_, rfl⟩
    refine mem_specQuery_new _ _ _ _ _ (by simp) ?_
    intro hc
    exact sanitized_no_removed_key base_url _ (by decide) hc.1
  rw [heq] at hdoc
  exact hpat hdoc

theorem C2_build_meeting_info_witness :
    ((some ("tok" : String).data : Option Str) = some ("tok" : String).data) ∧
    (build_meeting_info c1url ("doc" : String).data ("pat" : String).data
        (some ("tok" : String).data) Provider.jiomeet 0).doctor_url
      ≠ (build_meeting_info c1url ("doc" : String).data
          ("pat" : String).data (some ("tok" : String).data)
          Provider.jiomeet 0).patient_url :=
  ⟨rfl, (C2_build_meeting_info c1url ("doc" : String).data
    ("pat" : String).data (some ("tok" : String).data) Provider.jiomeet
    0).2 ("tok" : String).data rfl⟩

/-! ## The dict model: nodup keys, identity on nodup input (for C3) -/

theorem keys_dictInsert_nodup (m : List (Str × Str)) (k v : Str)
    (h : (m.map (·.1)).Nodup) : ((dictInsert m k v).map (·.1)).Nodup := by
  rw [dictInsert]
  by_cases ha : m.any (fun p => p.1 == k) = true
  · rw [if_pos ha, keys_map_overwrite]
    exact h
  · rw [if_neg ha, List.map_append]
    have hk : k ∉ m.map (·.1) := fun hm => ha ((any_key_iff m k).2 hm)
    simp only [List.map_cons, List.map_nil]
    exact List.Nodup.append h (List.nodup_singleton k)
      (fun a hma hk1 => by
        rw [List.mem_singleton] at hk1
        exact hk (hk1 ▸ hma))

theorem pyDict_keys_nodup (l : List (Str × Str)) :
    ((pyDict l).map (·.1)).Nodup := by
  rw [pyDict]
  have hgen : ∀ (m : List (Str × Str)), (m.map (·.1)).Nodup →
      ((l.foldl (fun m kv => dictInsert m kv.1 kv.2) m).map (·.1)).Nodup := by
    induction l with
    | nil => intro m hm; exact hm
    | cons kv rest ih =>
      intro m hm
      rw [List.foldl_cons]
      exact ih _ (keys_dictInsert_nodup m kv.1 kv.2 hm)
  exact hgen [] (by simp)

theorem foldl_dictInsert_of_disjoint (l : List (Str × Str)) :
    ∀ (m : List (Str × Str)), ((m.map (·.1) ++ l.map (·.1)).Nodup) →
      l.foldl (fun m kv => dictInsert m kv.1 kv.2) m = m ++ l := by
  induction l with
  | nil => intro m _; simp
  | cons kv rest ih =>
    intro m hnd
    rw [List.foldl_cons]
    have hk : kv.1 ∉ m.map (·.1) := by
      have h2 := hnd
      rw [List.map_cons] at h2
      have hdisj := (List.nodup_append.1 h2).2.2
      intro hmem
      exact hdisj hmem (List.mem_cons_self _ _)
    have hins : dictInsert m kv.1 kv.2 = m ++ [kv] := by
      rw [dictInsert, if_neg (fun ha => hk ((any_key_iff m kv.1).1 ha))]
    have hnd2 : ((m ++ [kv]).map (·.1) ++ rest.map (·.1)).Nodup := by
      rw [List.map_append]
      simp only [List.map_cons, List.map_nil]
      rw [List.append_assoc, List.singleton_append]
      rw [List.map_cons] at hnd
      exact hnd
    rw [hins, ih (m ++ [kv]) hnd2, List.append_assoc, List.singleton_append]

theorem pyDict_eq_self_of_nodup (l : List (Str × Str))
    (h : (l.map (·.1)).Nodup) : pyDict l = l := by
  rw [pyDict, foldl_dictInsert_of_disjoint l [] (by simpa using h)]
  rfl

/-! ## Claim C3: the augmentation algebra -/

/-- Setting a key twice in one dictionary pass keeps the last value. -/
theorem dictInsert_dictInsert (m : List (Str × Str)) (k v1 v2 : Str) :
    dictInsert (dictInsert m k v1) k v2 = dictInsert m k v2 := by
  by_cases h : m.any (fun p => p.1 == k) = true
  · have hinner : dictInsert m k v1
        = m.map (fun p => if p.1 == k then (k, v1) else p) := by
      rw [dictInsert, if_pos h]
    have h2 : ((m.map (fun p => if p.1 == k then (k, v1) else p)).any
        (fun p => p.1 == k)) = true := by
      rw [any_key_iff, keys_map_overwrite]
      exact (any_key_iff m k).1 h
    rw [hinner, dictInsert, if_pos h2, dictInsert, if_pos h, List.map_map]
    apply List.map_congr_left
    intro p _
    by_cases hp : p.1 = k
    · simp [Function.comp, hp]
    · simp [Function.comp, hp]
  · have hinner : dictInsert m k v1 = m ++ [(k, v1)] := by
      rw [dictInsert, if_neg h]
    have h2 : ((m ++ [(k, v1)]).any (fun p => p.1 == k)) = true := by simp
    rw [hinner, dictInsert, if_pos h2, dictInsert, if_neg h, List.map_append]
    congr 1
    · have h1 : m.map (fun p => if p.1 == k then (k, v2) else p)
          = m.map id :=
        List.map_congr_left (fun p hp => by
          have hpk : ¬(p.1 = k) := fun he =>
            absurd ((any_key_iff m k).2 (List.mem_map.2 ⟨p, hp, he⟩)) h
          simp [hpk])
      rw [h1, List.map_id]
    · simp

theorem filter_ne_overwrite (orig : List (Str × Str)) (k v : Str) :
    ((orig.map (fun kv => if kv.1 == k then (k, v) else kv)).filter
        (fun kv => !(kv.1 == k)))
      = orig.filter (fun kv => !(kv.1 == k)) := by
  induction orig with
  | nil => rfl
  | cons kv rest ih =>
    rw [List.map_cons, List.filter_cons, List.filter_cons]
    by_cases h : kv.1 = k
    · simp only [h, beq_self_eq_true, if_true, Bool.not_true,
        Bool.false_eq_true, if_false]
      exact ih
    · have hb : (kv.1 == k) = false := by simp [h]
      simp only [hb, Bool.false_eq_true, if_false, Bool.not_false, if_true]
      rw [ih]

/-- The augmented dictionary after removing one key, on the spec side. -/
theorem specQuery_remove_single (orig : List (Str × Str)) (k : Str) :
    specQuery orig [(k, none)] []
      = orig.filter (fun kv => !(kv.1 == k)) := by
  rw [specQuery]
  have h2 : ([(k, (none : Option Str))]).filterMap
      (newAct (orig.map (·.1)) []) = [] := rfl
  rw [h2, List.append_nil]
  clear h2
  induction orig with
  | nil => rfl
  | cons kv rest ih =>
    rw [List.filter_cons]
    by_cases h : kv.1 = k
    · have hs : survAct [(k, none)] [] kv = none := by
        rw [survAct, if_neg (List.not_mem_nil _)]
        exact actFate_del _ _ (by rw [psAct_cons, if_pos h.symm])
      rw [List.filterMap_cons_none hs]
      have hb : (!(kv.1 == k)) = false := by simp [h]
      rw [hb]
      simp only [Bool.false_eq_true, if_false]
      exact ih
    · have hs : survAct [(k, none)] [] kv = some kv := by
        rw [survAct, if_neg (List.not_mem_nil _)]
        refine actFate_keep _ _ ?_
        rw [psAct_cons, if_neg (fun he => h he.symm)]
        rfl
      rw [List.filterMap_cons_some hs]
      have hb : (!(kv.1 == k)) = true := by simp [h]
      rw [hb]
      simp only [if_true]
      rw [ih]

/-- The augmented dictionary after setting one key, on the spec side:
overwrite in place when present, append when absent. -/
theorem specQuery_set_single (orig : List (Str × Str)) (k v : Str) :
    specQuery orig [(k, some v)] []
      = (if k ∈ orig.map (·.1) then
          orig.map (fun kv => if kv.1 == k then (k, v) else kv)
        else orig ++ [(k, v)]) := by
  rw [specQuery]
  have hsv : orig.filterMap (survAct [(k, some v)] [])
      = orig.map (fun kv => if kv.1 == k then (k, v) else kv) := by
    induction orig with
    | nil => rfl
    | cons kv rest ih =>
      rw [List.map_cons]
      by_cases h : kv.1 = k
      · have hs : survAct [(k, some v)] [] kv = some (kv.1, v) := by
          rw [survAct, if_neg (List.not_mem_nil _)]
          exact actFate_set _ _ _ (by rw [psAct_cons, if_pos h.symm])
        rw [List.filterMap_cons_some hs, ih]
        have hb : (kv.1 == k) = true := by simp [h]
        rw [hb]
        simp only [if_true]
        rw [h]
      · have hs : survAct [(k, some v)] [] kv = some kv := by
          rw [survAct, if_neg (List.not_mem_nil _)]
          refine actFate_keep _ _ ?_
          rw [psAct_cons, if_neg (fun he => h he.symm)]
          rfl
        rw [List.filterMap_cons_some hs, ih]
        have hb : (kv.1 == k) = false := by simp [h]
        rw [hb]
        simp only [Bool.false_eq_true, if_false]
  rw [hsv]
  by_cases hmem : k ∈ orig.map (·.1)
  · rw [if_pos hmem]
    have hnew : ([(k, some v)]).filterMap (newAct (orig.map (·.1)) [])
        = [] := by
      rw [List.filterMap_cons_none, List.filterMap_nil]
      rw [newAct]
      simp only [Option.some_bind]
      rw [if_pos ⟨hmem, List.not_mem_nil _⟩]
    rw [hnew, List.append_nil]
  · rw [if_neg hmem]
    have hnew : ([(k, some v)]).filterMap (newAct (orig.map (·.1)) [])
        = [(k, v)] := by
      rw [List.filterMap_cons_some, List.filterMap_nil]
      rw [newAct]
      simp only [Option.some_bind]
      rw [if_neg (fun hc => hmem hc.1)]
    have hmap : orig.map (fun kv => if kv.1 == k then (k, v) else kv)
        = orig := by
      have h1 : orig.map (fun kv => if kv.1 == k then (k, v) else kv)
          = orig.map id :=
        List.map_congr_left (fun kv hkv => by
          have hpk : (kv.1 == k) = false := by
            simp only [beq_eq_false_iff_ne, ne_eq]
            intro he
            exact hmem (List.mem_map.2 ⟨kv, hkv, he⟩)
          rw [hpk]
          simp)
      rw [h1, List.map_id]
    rw [hnew, hmap]

/-- C3: the augmentation algebra.  (i) Removing a key absent from the
query — by either removal mode — is a no-op: the result is the same URL
string the trivial augmentation produces.  (ii) Setting a key and then
removing it in a second augmentation restores the original query
dictionary minus that key, with the order of the remaining keys
preserved.  (iii) Supplying the same key twice in one call keeps the
last-supplied value, already at the URL-string level. -/
theorem C3_augment_algebra (u : Str) (k v v1 v2 : Str) (rk : List Str) :
    (k ∉ (parse_qsl (urlparse u).query).map (·.1) →
      augment_url u [] [k] = augment_url u [] [] ∧
      augment_url u [(k, none)] [] = augment_url u [] []) ∧
    (parse_qsl (urlparse (augment_url (augment_url u [(k, some v)] [])
          [(k, none)] [])).query
        = (pyDict (parse_qsl (urlparse u).query)).filter
            (fun kv => !(kv.1 == k))) ∧
    (augment_url u [(k, some v1), (k, some v2)] rk
        = augment_url u [(k, some v2)] rk) := by
  refine ⟨?_, ?_, ?_⟩
  · intro hk
    rw [← mem_keys_pyDict] at hk
    have hpop : dictPop (pyDict (parse_qsl (urlparse u).query)) k
        = pyDict (parse_qsl (urlparse u).query) := by
      rw [dictPop]
      apply List.filter_eq_self.mpr
      intro kv hkv
      simp only [Bool.not_eq_eq_eq_not, Bool.not_true, beq_eq_false_iff_ne,
        ne_eq]
      intro he
      exact hk (List.mem_map.2 ⟨kv, hkv, he⟩)
    constructor
    · simp only [augment_url, List.foldl_cons, List.foldl_nil]
      rw [hpop]
    · simp only [augment_url, List.foldl_cons, List.foldl_nil, paramStep]
      rw [hpop]
  · have hq1 := augment_url_query u [(k, some v)] [] (by
      show ([k] : List Str).Nodup
      exact List.nodup_singleton k)
    rw [augment_url_query _ [(k, none)] [] (by
      show ([k] : List Str).Nodup
      exact List.nodup_singleton k)]
    rw [hq1, specQuery_remove_single, specQuery_set_single]
    set orig := pyDict (parse_qsl (urlparse u).query) with horig
    have hnd : (orig.map (·.1)).Nodup := pyDict_keys_nodup _
    by_cases hmem : k ∈ orig.map (·.1)
    · rw [if_pos hmem]
      rw [pyDict_eq_self_of_nodup _ (by rw [keys_map_overwrite]; exact hnd)]
      exact filter_ne_overwrite orig k v
    · rw [if_neg hmem]
      rw [pyDict_eq_self_of_nodup _ (by
        rw [List.map_append]
        simp only [List.map_cons, List.map_nil]
        exact List.Nodup.append hnd (List.nodup_singleton k)
          (fun a hma hk1 => by
            rw [List.mem_singleton] at hk1
            exact hmem (hk1 ▸ hma)))]
      rw [List.filter_append]
      have h1 : ([(k, v)] : List (Str × Str)).filter
          (fun kv => !(kv.1 == k)) = [] := by simp
      rw [h1, List.append_nil]
  · simp only [augment_url, List.foldl_cons, List.foldl_nil, paramStep]
    rw [dictInsert_dictInsert]

def c3url : Str := ("https://host/p" : String).data

theorem C3_augment_algebra_witness :
    (("z" : String).data ∉
      (parse_qsl (urlparse c3url).query).map (·.1)) ∧
    augment_url c3url [] [("z" : String).data] = augment_url c3url [] [] :=
  ⟨by decide,
    ((C3_augment_algebra c3url ("z" : String).data [] [] [] []).1
      (by decide)).1⟩

/-! ## Claim C4: the mock meeting -/

theorem mockHost_ne_nil (c : JioMeetClient) : mockHost c ≠ [] := by
  cases hsub : c.subdomain with
  | none =>
    simp only [mockHost, hsub]
    decide
  | some s =>
    simp only [mockHost, hsub]
    by_cases hs : s.isEmpty = true
    · rw [if_pos hs]
      decide
    · rw [if_neg hs]
      intro h
      subst h
      exact hs rfl

/-- Parsing the synthesized mock guest URL recovers its components, for any
host free of netloc delimiters. -/
theorem urlparse_https_host (host : Str) (hne : host ≠ [])
    (hhost : ∀ c ∈ host, netlocDelim c = false) :
    urlparse (("https://" : String).data ++ host ++ ("/guest" : String).data)
      = ⟨("https" : String).data, host, ("/guest" : String).data,
          [], [], []⟩ := by
  have hwf : WFParse ⟨("https" : String).data, host,
      ("/guest" : String).data, [], [], []⟩ := by
    refine ⟨?_, ?_, ?_, ?_, ?_, ?_, ?_⟩
    · refine Or.inr ⟨?_, ?_, ?_, ?_⟩
      · show ("https" : String).data ≠ []
        decide
      · show (("https" : String).data.headD ' ').isAlpha = true
        decide
      · show ∀ c ∈ ("https" : String).data, c ∈ schemeChars
        decide
      · show ("https" : String).data.map Char.toLower
          = ("https" : String).data
        decide
    · exact hhost
    · show ∀ c ∈ ("/guest" : String).data, c ≠ '?' ∧ c ≠ '#'
      decide
    · show ∀ c ∈ ([] : Str), c ≠ '/' ∧ c ≠ '?' ∧ c ≠ '#'
      decide
    · intro _
      right
      show ("/guest" : String).data.take 1 = ['/']
      decide
    · show (if ("https" : String).data ∈ usesParams
          then splitParams ("/guest" : String).data
          else (("/guest" : String).data, []))
        = (("/guest" : String).data, ([] : Str))
      decide
    · intro h _
      exact absurd (show ("https" : String).data = [] from h) (by decide)
  have hu : urlunparse ⟨("https" : String).data, host,
      ("/guest" : String).data, [], [], []⟩
      = ("https://" : String).data ++ host
        ++ ("/guest" : String).data := by
    rw [urlunparse]
    show urlunsplit ("https" : String).data host
      (pathWithParams ⟨("https" : String).data, host,
        ("/guest" : String).data, [], [], []⟩) [] [] = _
    rw [show pathWithParams ⟨("https" : String).data, host,
      ("/guest" : String).data, [], [], []⟩ = ("/guest" : String).data
      from rfl]
    simp only [urlunsplit]
    rw [if_pos (Or.inl hne)]
    rw [if_neg (show ¬(("/guest" : String).data ≠ [] ∧
      ("/guest" : String).data.take 1 ≠ ['/']) by decide)]
    rw [if_pos (show ("https" : String).data ≠ [] by decide)]
    rw [if_neg (show ¬(([] : Str) ≠ []) by decide)]
    rw [if_neg (show ¬(([] : Str) ≠ []) by decide)]
    simp [List.append_assoc]
  rw [← hu, urlparse_urlunparse _ hwf (by simp)]

theorem decDigit_isDigit (m : Nat) (h : m < 10) :
    (decDigit m).isDigit = true := by
  interval_cases m <;> decide

theorem mem_decRepr_isDigit (n : Nat) : ∀ c ∈ decRepr n, c.isDigit = true := by
  induction n using Nat.strong_induction_on with
  | _ n ih =>
    intro c hc
    by_cases h : n < 10
    · rw [decRepr, if_pos h] at hc
      rw [List.mem_singleton] at hc
      subst hc
      exact decDigit_isDigit n h
    · rw [decRepr, if_neg h] at hc
      rcases List.mem_append.1 hc with h2 | h2
      · exact ih (n / 10) (Nat.div_lt_self (by omega) (by omega)) c h2
      · rw [List.mem_singleton] at h2
        subst h2
        exact decDigit_isDigit _ (Nat.mod_lt _ (by omega))

theorem decRepr_length_le : ∀ (k n : Nat), n < 10 ^ k → 1 ≤ k →
    (decRepr n).length ≤ k := by
  intro k
  induction k with
  | zero =>
    intro n _ h2
    omega
  | succ k ih =>
    intro n h1 _
    by_cases h : n < 10
    · rw [decRepr, if_pos h]
      simp only [List.length_cons, List.length_nil]
      omega
    · rw [decRepr, if_neg h]
      rw [List.length_append]
      have hk : 1 ≤ k := by
        rcases Nat.eq_zero_or_pos k with hk0 | hk0
        · subst hk0
          rw [pow_one] at h1
          omega
        · exact hk0
      have hd : n / 10 < 10 ^ k := by
        have h10 : n < 10 ^ k * 10 := by
          rw [← pow_succ]
          exact h1
        omega
      have hlen := ih (n / 10) hd hk
      simp only [List.length_cons, List.length_nil]
      omega

/-- `f"{n:06d}"` of a value below one million is a 6-character string of
decimal digits. -/
theorem format06d_spec (n : Nat) (h : n < 1000000) :
    (format06d n).length = 6 ∧ ∀ c ∈ format06d n, c.isDigit = true := by
  have hp : (10 : Nat) ^ 6 = 1000000 := by norm_num
  have hlen : (decRepr n).length ≤ 6 :=
    decRepr_length_le 6 n (hp ▸ h) (by omega)
  constructor
  · simp only [format06d, List.length_append, List.length_replicate]
    omega
  · intro c hc
    simp only [format06d] at hc
    rcases List.mem_append.1 hc with h2 | h2
    · rw [List.eq_of_mem_replicate h2]
      decide
    · exact mem_decRepr_isDigit n c h2

theorem toUpper_hex : ∀ c ∈ ("0123456789abcdef" : String).data,
    c.toUpper ∈ ("0123456789ABCDEF" : String).data := by decide

/-- C4: in mock mode, `create_meeting` consults no response (the result is
the same for any two responses: no network I/O can influence it) and
returns the pure `_create_mock_meeting` value, whose provider is `mock`,
whose base URL's query consists exactly of a `meetingId` parameter — a
10-character uppercase hexadecimal string — and a `pwd` parameter — a
6-character zero-padded decimal string — and whose host is the configured
subdomain or the fixed fallback `mock.jiomeet.local`.  The `uuid4()` draws
are abstracted: `uuidHex` is assumed to be at least 10 lowercase hex
characters, as `uuid4().hex` always is, and the subdomain is assumed free
of URL delimiters, as a hostname is. -/
theorem C4_mock_meeting (c : JioMeetClient) (hm : c.mock_mode = true)
    (dn pn ds uuidHex : Str) (uuidInt now : Nat)
    (hlen : 10 ≤ uuidHex.length)
    (hhex : ∀ ch ∈ uuidHex, ch ∈ ("0123456789abcdef" : String).data)
    (hhost : ∀ ch ∈ mockHost c, netlocDelim ch = false)
    (resp resp2 : JMResponse) :
    create_meeting c dn pn ds uuidHex uuidInt now resp
        = create_meeting c dn pn ds uuidHex uuidInt now resp2 ∧
    create_meeting c dn pn ds uuidHex uuidInt now resp
        = Except.ok (create_mock_meeting c dn pn uuidHex uuidInt now) ∧
    (create_mock_meeting c dn pn uuidHex uuidInt now).provider
        = Provider.mock ∧
    parse_qsl (urlparse (create_mock_meeting c dn pn uuidHex uuidInt
          now).base_url).query
        = [(("meetingId" : String).data, (uuidHex.take 10).map Char.toUpper),
            (("pwd" : String).data, format06d (uuidInt % 1000000))] ∧
    ((uuidHex.take 10).map Char.toUpper).length = 10 ∧
    (∀ ch ∈ (uuidHex.take 10).map Char.toUpper,
      ch ∈ ("0123456789ABCDEF" : String).data) ∧
    (format06d (uuidInt % 1000000)).length = 6 ∧
    (∀ ch ∈ format06d (uuidInt % 1000000), ch.isDigit = true) ∧
    (urlparse (create_mock_meeting c dn pn uuidHex uuidInt
        now).base_url).netloc = mockHost c := by
  have hne := mockHost_ne_nil c
  have hparse := urlparse_https_host (mockHost c) hne hhost
  have hnd2 : (([(("meetingId" : String).data,
      some ((uuidHex.take 10).map Char.toUpper)),
      (("pwd" : String).data,
        some (format06d (uuidInt % 1000000)))]).map (·.1)).Nodup := by
    show ([("meetingId" : String).data, ("pwd" : String).data] :
      List Str).Nodup
    decide
  refine ⟨?_, ?_, rfl, ?_, ?_, ?_, ?_, ?_, ?_⟩
  · simp only [create_meeting, hm, eq_self_iff_true, if_true]
  · simp only [create_meeting, hm, eq_self_iff_true, if_true]
  · simp only [create_mock_meeting, build_meeting_info]
    rw [augment_url_query _ [] _ (by simp)]
    rw [augment_url_query _ _ [] hnd2]
    rw [hparse]
    rfl
  · rw [List.length_map, List.length_take]
    omega
  · intro ch hch
    rcases List.mem_map.1 hch with ⟨c0, hc0, hup⟩
    rw [← hup]
    exact toUpper_hex c0 (hhex c0 (List.mem_of_mem_take hc0))
  · exact (format06d_spec _ (Nat.mod_lt _ (by omega))).1
  · exact fun ch hch =>
      (format06d_spec _ (Nat.mod_lt _ (by omega))).2 ch hch
  · simp only [create_mock_meeting, build_meeting_info]
    rw [augment_url_parsed _ [] _ (by simp)]
    rw [augment_url_parsed _ _ [] hnd2]
    rw [hparse]

theorem C4_mock_meeting_witness :
    ((JioMeetClient.init none none none true).mock_mode = true) ∧
    10 ≤ (("0123456789abcdef0123456789abcdef" : String).data).length ∧
    (∀ ch ∈ ("0123456789abcdef0123456789abcdef" : String).data,
      ch ∈ ("0123456789abcdef" : String).data) ∧
    (∀ ch ∈ mockHost (JioMeetClient.init none none none true),
      netlocDelim ch = false) ∧
    (create_mock_meeting (JioMeetClient.init none none none true)
        [] [] ("0123456789abcdef0123456789abcdef" : String).data 0
        0).provider = Provider.mock :=
  ⟨by decide, by decide, by decide, by decide,
    (C4_mock_meeting (JioMeetClient.init none none none true) (by decide)
      [] [] [] ("0123456789abcdef0123456789abcdef" : String).data 0 0
      (by decide) (by decide) (by decide) sampleResp sampleResp).2.2.1⟩

/-! ## Claim C10: duplicate-key collapse -/

/-- The value of the last occurrence of key `k` in `l`. -/
def lastVal (l : List (Str × Str)) (k : Str) : Option Str :=
  (l.reverse.find? (fun kv => kv.1 == k)).map (·.2)

/-- The claim's description of the duplicate collapse, taken from its
wording: each key keeps the position of its first occurrence and carries
the value of its last occurrence. -/
def collapse : List (Str × Str) → List (Str × Str)
  | [] => []
  | (k, v) :: rest =>
    (k, (lastVal rest k).getD v)
      :: collapse (rest.filter (fun kv => !(kv.1 == k)))
termination_by l => l.length
decreasing_by
  simp only [List.length_cons]
  exact Nat.lt_succ_of_le (List.length_filter_le _ _)

theorem collapse_nil : collapse [] = [] := by
  rw [collapse]

theorem lastVal_cons (k0 v0 : Str) (rest : List (Str × Str)) (k : Str) :
    lastVal ((k0, v0) :: rest) k
      = (lastVal rest k).or (if k0 == k then some v0 else none) := by
  rw [lastVal, lastVal, List.reverse_cons, List.find?_append]
  by_cases hk : (k0 == k) = true <;>
    cases hf : rest.reverse.find? (fun kv => kv.1 == k) <;>
      simp [List.find?_cons, hk, hf]

theorem find?_filter_sub {α : Type} (l : List α) (p q : α → Bool)
    (h : ∀ x ∈ l, q x = true → p x = true) :
    (l.filter p).find? q = l.find? q := by
  induction l with
  | nil => rfl
  | cons a rest ih =>
    have ih2 := ih (fun x hx hqx => h x (List.mem_cons_of_mem _ hx) hqx)
    rw [List.filter_cons]
    by_cases hp : p a = true
    · rw [if_pos hp]
      by_cases hq : q a = true
      · rw [List.find?_cons_of_pos _ hq, List.find?_cons_of_pos _ hq]
      · rw [List.find?_cons_of_neg _ hq, List.find?_cons_of_neg _ hq, ih2]
    · rw [if_neg hp]
      have hq : ¬(q a = true) := fun hqa =>
        hp (h a (List.mem_cons_self _ _) hqa)
      rw [List.find?_cons_of_neg _ hq, ih2]

theorem lastVal_filter (l : List (Str × Str)) (p : Str × Str → Bool)
    (k : Str) (h : ∀ kv ∈ l, kv.1 = k → p kv = true) :
    lastVal (l.filter p) k = lastVal l k := by
  rw [lastVal, lastVal, ← List.filter_reverse]
  rw [find?_filter_sub l.reverse p (fun kv => kv.1 == k)
    (fun kv hkv hq => h kv (List.mem_reverse.1 hkv) (by simpa using hq))]

theorem lastVal_nil_of_no_key (l : List (Str × Str)) (k : Str)
    (h : ∀ kv ∈ l, kv.1 ≠ k) : lastVal l k = none := by
  rw [lastVal]
  rw [List.find?_eq_none.2 (fun kv hkv => by
    simpa using h kv (List.mem_reverse.1 hkv))]
  rfl

/-- The fold of `dict` insertion, fully characterized: the seed keys are
overwritten by their last value in `l`, and the genuinely new pairs of `l`
collapse first-position/last-value. -/
theorem foldl_dictInsert_eq (l : List (Str × Str)) :
    ∀ (m : List (Str × Str)), (m.map (·.1)).Nodup →
      l.foldl (fun m kv => dictInsert m kv.1 kv.2) m
        = m.map (fun kv => (kv.1, ((lastVal l kv.1).getD kv.2)))
          ++ collapse (l.filter
              (fun kv => decide (kv.1 ∉ m.map (·.1)))) := by
  induction l with
  | nil =>
    intro m hm
    rw [List.foldl_nil, List.filter_nil]
    rw [collapse_nil, List.append_nil]
    have hmap : m.map (fun kv => (kv.1, ((lastVal [] kv.1).getD kv.2)))
        = m.map id :=
      List.map_congr_left (fun kv _ => by
        rw [show lastVal [] kv.1 = none from rfl]
        simp)
    rw [hmap, List.map_id]
  | cons kv0 rest ih =>
    intro m hm
    obtain ⟨k0, v0⟩ := kv0
    rw [List.foldl_cons]
    by_cases hmem : k0 ∈ m.map (·.1)
    · have hins : dictInsert m k0 v0
          = m.map (fun p => if p.1 == k0 then (k0, v0) else p) := by
        rw [dictInsert, if_pos ((any_key_iff m k0).2 hmem)]
      rw [hins, ih _ (by rw [keys_map_overwrite]; exact hm)]
      rw [keys_map_overwrite, List.map_map]
      congr 1
      · apply List.map_congr_left
        intro p _
        simp only [Function.comp_apply]
        by_cases hpk : p.1 = k0
        · rw [show (if p.1 == k0 then (k0, v0) else p) = (k0, v0) from by
            simp [hpk]]
          rw [hpk, lastVal_cons]
          rw [show (if k0 == k0 then some v0 else none) = some v0 from by
            simp]
          cases hlv : lastVal rest k0 with
          | some w => simp [hlv]
          | none => simp [hlv]
        · rw [show (if p.1 == k0 then (k0, v0) else p) = p from by
            simp [hpk]]
          rw [lastVal_cons]
          rw [show (if k0 == p.1 then some v0 else none) = none from by
            simp [Ne.symm hpk]]
          rw [Option.or_none]
      · rw [List.filter_cons]
        rw [show (decide ((k0, v0).1 ∉ m.map (·.1))) = false from by
          simp [hmem]]
        simp only [Bool.false_eq_true, if_false]
    · have hins : dictInsert m k0 v0 = m ++ [(k0, v0)] := by
        rw [dictInsert, if_neg (fun ha => hmem ((any_key_iff m k0).1 ha))]
      have hm2 : ((m ++ [(k0, v0)]).map (·.1)).Nodup := by
        rw [List.map_append]
        simp only [List.map_cons, List.map_nil]
        exact List.Nodup.append hm (List.nodup_singleton k0)
          (fun a hma hk1 => by
            rw [List.mem_singleton] at hk1
            exact hmem (hk1 ▸ hma))
      rw [hins, ih _ hm2]
      rw [List.map_append, List.append_assoc]
      rw [List.filter_cons]
      rw [show (decide ((k0, v0).1 ∉ m.map (·.1))) = true from by
        simp [hmem]]
      rw [if_pos rfl]
      rw [collapse]
      congr 1
      · apply List.map_congr_left
        intro p hp
        have hpk : p.1 ≠ k0 := fun he =>
          hmem (he ▸ List.mem_map.2 ⟨p, hp, rfl⟩)
        rw [lastVal_cons]
        rw [show (if k0 == p.1 then some v0 else none) = none from by
          simp [Ne.symm hpk]]
        rw [Option.or_none]
      · simp only [List.map_cons, List.map_nil]
        rw [lastVal_filter rest _ k0 (fun kv _ hkk => by
          simp only [decide_eq_true_eq]
          rw [hkk]
          exact hmem)]
        rw [List.singleton_append]
        congr 2
        rw [List.filter_filter]
        apply List.filter_congr
        intro kv _
        rw [List.map_append]
        simp only [List.map_cons, List.map_nil, List.mem_append,
          List.mem_singleton]
        by_cases h1 : kv.1 ∈ m.map (·.1) <;> by_cases h2 : kv.1 = k0 <;>
          simp [h1, h2]

theorem pyDict_eq_collapse (l : List (Str × Str)) : pyDict l = collapse l := by
  rw [pyDict, foldl_dictInsert_eq l [] (by simp)]
  rw [show (([] : List (Str × Str)).map
    (fun kv => (kv.1, ((lastVal l kv.1).getD kv.2)))) = [] from rfl]
  rw [List.nil_append]
  congr 1
  apply List.filter_eq_self.mpr
  intro kv _
  simp

/-- In the collapsed list a key occurs once, with the value of its last
occurrence — and not at all when absent. -/
theorem collapse_filter_key (l : List (Str × Str)) (k : Str) :
    (collapse l).filter (fun kv => kv.1 == k)
      = (lastVal l k).elim [] (fun w => [(k, w)]) := by
  have main : ∀ (n : Nat) (l : List (Str × Str)), l.length ≤ n →
      (collapse l).filter (fun kv => kv.1 == k)
        = (lastVal l k).elim [] (fun w => [(k, w)]) := by
    intro n
    induction n with
    | zero =>
      intro l hl
      have h0 : l = [] := List.eq_nil_of_length_eq_zero (by omega)
      subst h0
      rw [collapse_nil]
      rfl
    | succ n ih =>
      intro l hl
      cases l with
      | nil =>
        rw [collapse_nil]
        rfl
      | cons kv0 rest =>
        obtain ⟨k0, v0⟩ := kv0
        rw [collapse, List.filter_cons]
        by_cases hk : k0 = k
        · subst hk
          rw [show ((k0, (lastVal rest k0).getD v0).1 == k0) = true from by
            simp]
          simp only [if_true]
          have htail : (collapse (rest.filter (fun kv => !(kv.1 == k0)))).filter
              (fun kv => kv.1 == k0) = [] := by
            rw [ih (rest.filter (fun kv => !(kv.1 == k0))) (by
              have := List.length_filter_le (fun kv => !(kv.1 == k0)) rest
              simp only [List.length_cons] at hl
              omega)]
            rw [lastVal_nil_of_no_key _ _ (fun kv hkv => by
              rcases List.mem_filter.1 hkv with ⟨_, hpk⟩
              simpa using hpk)]
            rfl
          rw [htail, lastVal_cons]
          rw [show (if k0 == k0 then some v0 else none) = some v0 from by
            simp]
          cases hlv : lastVal rest k0 with
          | some w => simp [hlv, Option.elim]
          | none => simp [hlv, Option.elim]
        · rw [show ((k0, (lastVal rest k0).getD v0).1 == k) = false from by
            simp [hk]]
          simp only [Bool.false_eq_true, if_false]
          rw [ih (rest.filter (fun kv => !(kv.1 == k0))) (by
            have := List.length_filter_le (fun kv => !(kv.1 == k0)) rest
            simp only [List.length_cons] at hl
            omega)]
          rw [lastVal_filter rest _ k (fun kv _ hkk => by
            rw [hkk]
            have hne : ¬(k = k0) := fun he => hk he.symm
            simp [hne])]
          rw [lastVal_cons]
          rw [show (if k0 == k then some v0 else none) = none from by
            simp [hk]]
          rw [Option.or_none]
  exact main l.length l le_rfl

/-- Augmentation that does not touch key `k` preserves the `k`-entries of
the (collapsed) original exactly. -/
theorem specQuery_filter_untouched (orig : List (Str × Str))
    (ps : List (Str × Option Str)) (rk : List Str) (k : Str)
    (hps : k ∉ ps.map (·.1)) (hrk : k ∉ rk) :
    (specQuery orig ps rk).filter (fun kv => kv.1 == k)
      = orig.filter (fun kv => kv.1 == k) := by
  rw [specQuery, List.filter_append]
  have hnew : (ps.filterMap (newAct (orig.map (·.1)) rk)).filter
      (fun kv => kv.1 == k) = [] := by
    apply List.filter_eq_nil_iff.mpr
    intro e he
    rcases List.mem_filterMap.1 he with ⟨kv, hkv, hact⟩
    have hfst := newAct_fst _ _ _ _ hact
    intro hbeq
    rw [beq_iff_eq] at hbeq
    exact hps (List.mem_map.2 ⟨kv, hkv, by rw [← hfst, hbeq]⟩)
  rw [hnew, List.append_nil]
  clear hnew
  induction orig with
  | nil => rfl
  | cons kv rest ih =>
    rw [List.filter_cons]
    by_cases hk : kv.1 = k
    · have hs : survAct ps rk kv = some kv := by
        rw [survAct, if_neg (by rw [hk]; exact hrk)]
        exact actFate_keep _ _ (psAct_of_not_mem _ _ (by rw [hk]; exact hps))
      rw [List.filterMap_cons_some hs, List.filter_cons]
      have hb : (kv.1 == k) = true := by simp [hk]
      rw [hb]
      simp only [if_true]
      rw [ih]
    · cases hs : survAct ps rk kv with
      | none =>
        rw [List.filterMap_cons_none hs]
        have hb : (kv.1 == k) = false := by simp [hk]
        rw [hb]
        simp only [Bool.false_eq_true, if_false]
        exact ih
      | some e =>
        rw [List.filterMap_cons_some hs, List.filter_cons]
        have he1 : e.1 = kv.1 := survAct_fst _ _ _ _ hs
        have hb : (e.1 == k) = false := by
          rw [he1]
          simp [hk]
        have hb2 : (kv.1 == k) = false := by simp [hk]
        rw [hb, hb2]
        simp only [Bool.false_eq_true, if_false]
        exact ih

theorem count_keys_eq_filter_length (l : List (Str × Str)) (k : Str) :
    (l.map (·.1)).count k = (l.filter (fun kv => kv.1 == k)).length := by
  induction l with
  | nil => rfl
  | cons kv rest ih =>
    by_cases h : kv.1 = k <;>
      simp [List.count_cons, List.filter_cons, h, ih]

/-- C10: for a URL whose query string repeats a key, `_augment_url` with
parameters and removal set not touching that key collapses the duplicates:
the parsed output query is the spec-side augmentation of `collapse` of the
original pair list (`collapse` keeps each key at the position of its first
occurrence, with the value of its last occurrence — and `pyDict`, the
embedding of Python `dict(pairs)`, provably equals it); the key occurs
exactly once in the output; and its single value is the value of its last
occurrence in the input. -/
theorem C10_duplicate_keys (u : Str) (ps : List (Str × Option Str))
    (rk : List Str) (k : Str) (hnd : (ps.map (·.1)).Nodup)
    (hdup : 2 ≤ ((parse_qsl (urlparse u).query).map (·.1)).count k)
    (hps : k ∉ ps.map (·.1)) (hrk : k ∉ rk) :
    parse_qsl (urlparse (augment_url u ps rk)).query
        = specQuery (collapse (parse_qsl (urlparse u).query)) ps rk ∧
    ((parse_qsl (urlparse (augment_url u ps rk)).query).map (·.1)).count k
        = 1 ∧
    (parse_qsl (urlparse (augment_url u ps rk)).query).find?
        (fun kv => kv.1 == k)
      = (lastVal (parse_qsl (urlparse u).query) k).map (fun w => (k, w)) := by
  set qs := parse_qsl (urlparse u).query with hqs
  have h1 : parse_qsl (urlparse (augment_url u ps rk)).query
      = specQuery (pyDict qs) ps rk := augment_url_query u ps rk hnd
  have hkmem : k ∈ qs.map (·.1) := by
    have hpos : 0 < (qs.map (·.1)).count k := by omega
    exact List.count_pos_iff.1 hpos
  have hfilter : (specQuery (pyDict qs) ps rk).filter (fun kv => kv.1 == k)
      = (pyDict qs).filter (fun kv => kv.1 == k) :=
    specQuery_filter_untouched _ ps rk k hps hrk
  have hcoll : pyDict qs = collapse qs := pyDict_eq_collapse qs
  obtain ⟨w, hw⟩ : ∃ w, lastVal qs k = some w := by
    rw [lastVal]
    cases hf : qs.reverse.find? (fun kv => kv.1 == k) with
    | some e => exact ⟨e.2, rfl⟩
    | none =>
      exfalso
      rw [List.find?_eq_none] at hf
      rcases List.mem_map.1 hkmem with ⟨kv, hkv, hk1⟩
      exact hf kv (List.mem_reverse.2 hkv) (by simp [hk1])
  have hsingle : (pyDict qs).filter (fun kv => kv.1 == k) = [(k, w)] := by
    rw [hcoll, collapse_filter_key, hw]
    rfl
  refine ⟨by rw [h1, hcoll], ?_, ?_⟩
  · rw [h1, count_keys_eq_filter_length, hfilter, hsingle]
    rfl
  · rw [h1, ← List.filter_head?, hfilter, hsingle, hw]
    rfl

def c10list : List (Str × Str) :=
  [(("a" : String).data, ("1" : String).data),
    (("b" : String).data, ("2" : String).data),
    (("a" : String).data, ("3" : String).data)]

def c10parse : ParseResult :=
  ⟨("https" : String).data, ("h" : String).data, ("/p" : String).data,
    [], urlencode c10list, []⟩

def c10url : Str := urlunparse c10parse

theorem C10_duplicate_keys_witness :
    2 ≤ ((parse_qsl (urlparse c10url).query).map (·.1)).count
        ("a" : String).data ∧
    ((parse_qsl (urlparse (augment_url c10url [] [])).query).map
        (·.1)).count ("a" : String).data = 1 := by
  have hwf0 : WFParse c10parse := by
    refine ⟨by decide, by decide, by decide, by decide, by decide,
      by decide, ?_⟩
    intro h _
    exact absurd (show ("https" : String).data = [] from h) (by decide)
  have hup : urlparse c10url = c10parse := by
    rw [c10url]
    exact urlparse_urlunparse c10parse hwf0 (by decide)
  have hq : parse_qsl (urlparse c10url).query = c10list := by
    rw [hup]
    rw [show c10parse.query = urlencode c10list from rfl]
    exact parse_qsl_urlencode c10list
  constructor
  · rw [hq]
    decide
  · exact (C10_duplicate_keys c10url [] [] ("a" : String).data (by simp)
      (by rw [hq]; decide) (by simp) (by simp)).2.1

end JioMeet
